import Mathlib

/-!
# d2l-fetch: the middleware chain of `D2LFetch`

A shallow embedding of `src/d2lfetch.js`.

* JavaScript data values are `Val`; a thrown exception is `Except.error`, a returned value is
  `Except.ok` (`Outcome`).
* A middleware function is a `MiddlewareFn`: the identity of the function object together with
  what a call `fn(request, next, options)` does.  What it does is an `Act`: it returns, it
  throws, or it calls `next(x)` and goes on with the completion of that call.  A function can
  call `next` any number of times, with any argument, and look at what came back; it cannot
  reach the chain array or a `D2LFetch` object in another way.  A call of `next` made later,
  from a promise callback, stands in the `Act` where it happens in the order of the calls.
* Arrays and `D2LFetch` objects live in a `Heap` and are referred to by address, so that
  `slice`, `push`, `unshift`, `shift` and `filter` keep the aliasing they have in JavaScript.
  The chain of one `fetch` is such an array, shared by all the wrappers of that `fetch`.
* Every call a wrapper makes to its function is appended to a trace of `Call` records.
* The platform (`Request`, `window.fetch`) is a parameter, `Window`.
-/

namespace D2L

/-! ## Values -/

/-- A `Request` object of the platform, as far as the library and its tests look at it. -/
structure Request where
  url : String
  method : String
deriving DecidableEq, Repr

/-- An exception value. -/
inductive Err where
  | typeError (message : String)
  | other (id : Nat)
deriving DecidableEq, Repr

/-- JavaScript data values.  `obj id` is an object that is not a `Request` (a plain object, an
array, a promise, a `Response`) with identity `id`; `rejected e` is `Promise.reject(e)`. -/
inductive Val where
  | undefined
  | null
  | bool (b : Bool)
  | num (n : Int)
  | str (s : String)
  | obj (id : Nat)
  | request (r : Request)
  | rejected (e : Err)
deriving DecidableEq, Repr

/-- How a call completes: `ok v` returns `v`, `error e` throws `e`. -/
abbrev Outcome := Except Err Val

/-- The exception of calling `next` when it is `undefined`. -/
def notAFunction : Err := .typeError "next is not a function"

/-- The exception of reading `.fn` of the `undefined` that `shift()` gives on an empty array. -/
def noFnOfUndefined : Err := .typeError "Cannot read properties of undefined (reading fn)"

/-- What one activation of a middleware function does with the `next` it was given:
return a value, throw, or call `next(x)` and continue with the completion of that call. -/
inductive Act where
  | ret (v : Val)
  | throw (e : Err)
  | callNext (x : Val) (k : Outcome → Act)

/-- A function value used as middleware.  `id` is the identity of the function object;
`body request hasNext options` is the activation `fn(request, next, options)`, where
`hasNext` tells whether `next` is a function (`true`) or `undefined` (`false`). -/
structure MiddlewareFn where
  id : Nat
  body : Val → Bool → Val → Act

/-- The arrow function returned by `_wrapMiddleware(fn, options)`, as the pair it closes over. -/
structure Wrapped where
  fn : MiddlewareFn
  options : Val

/-- An element of `_installedMiddlewares` and of a chain: `{ name, fn }`. -/
structure Entry where
  name : String
  fn : Wrapped

/-- One call `fn(request, next, options)` made by a wrapper: the identity of the function
called, its three arguments (`next` given as the identity of the function it is bound to). -/
structure Call where
  fn : Nat
  request : Val
  next : Option Nat
  options : Val
deriving DecidableEq, Repr

/-! ## Heap -/

/-- A `D2LFetch` object: its one field holds the address of an array. -/
structure D2LFetch where
  _installedMiddlewares : Nat
deriving DecidableEq, Repr

/-- Arrays of entries and `D2LFetch` objects, addressed by their index of allocation. -/
structure Heap where
  arrays : List (List Entry)
  objects : List D2LFetch

namespace Heap

/-- Contents of the array at address `a`. -/
def readArray (h : Heap) (a : Nat) : List Entry := h.arrays.getD a []

/-- Replace the contents of the array at address `a`. -/
def writeArray (h : Heap) (a : Nat) (l : List Entry) : Heap :=
  { h with arrays := h.arrays.set a l }

/-- Allocate a new array with contents `l`. -/
def newArray (h : Heap) (l : List Entry) : Nat × Heap :=
  (h.arrays.length, { h with arrays := h.arrays ++ [l] })

/-- Allocate a new object. -/
def newObject (h : Heap) (o : D2LFetch) : Nat × Heap :=
  (h.objects.length, { h with objects := h.objects ++ [o] })

/-- Read `this._installedMiddlewares` (an array address; address 0 where there is no object at
`this`, which `Heap.Valid` excludes). -/
def field (h : Heap) (this : Nat) : Nat := (h.objects.getD this ⟨0⟩)._installedMiddlewares

/-- Assign `this._installedMiddlewares = a`. -/
def setField (h : Heap) (this a : Nat) : Heap :=
  { h with objects := h.objects.set this ⟨a⟩ }

/-- The entries installed in the object `this`. -/
def installed (h : Heap) (this : Nat) : List Entry := h.readArray (h.field this)

/-- `a.slice()`: a new array with the same elements. -/
def slice (h : Heap) (a : Nat) : Nat × Heap := h.newArray (h.readArray a)

/-- `a.filter(p)`: a new array with the elements that satisfy `p`. -/
def filter (h : Heap) (a : Nat) (p : Entry → Bool) : Nat × Heap :=
  h.newArray ((h.readArray a).filter p)

/-- `a.push(e)`. -/
def push (h : Heap) (a : Nat) (e : Entry) : Heap := h.writeArray a (h.readArray a ++ [e])

/-- `a.unshift(e)`. -/
def unshift (h : Heap) (a : Nat) (e : Entry) : Heap := h.writeArray a (e :: h.readArray a)

/-- `a.shift()`: removes and returns the first element, `undefined` on an empty array. -/
def shift (h : Heap) (a : Nat) : Option Entry × Heap :=
  match h.readArray a with
  | [] => (none, h)
  | e :: rest => (some e, h.writeArray a rest)

end Heap

/-- The state a call works on: the heap and the calls made so far. -/
structure St where
  heap : Heap
  trace : List Call

/-- States in which the array at address `chain` has at most `n` elements. -/
abbrev Bounded (chain n : Nat) := { s : St // (s.heap.readArray chain).length ≤ n }

/-! ## The chain -/

/-- Run an activation.  `next` is the function the activation was given as `next`
(`none` for `undefined`); calling an `undefined` `next` throws a `TypeError`. -/
def runAct {σ : Type} (next : Option (Val → σ → Outcome × σ)) : Act → σ → Outcome × σ
  | .ret v, s => (.ok v, s)
  | .throw e, s => (.error e, s)
  | .callNext x k, s =>
    match next with
    | none => runAct next (k (.error notAFunction)) s
    | some f => runAct next (k (f x s).1) (f x s).2

/-- `_wrapMiddleware(fn, options)`. -/
def _wrapMiddleware (fn : MiddlewareFn) (options : Val) : Wrapped := ⟨fn, options⟩

/-- A call `w(chain, request)` of the arrow function that `_wrapMiddleware` returned,
`chain` being the address of the shared chain array: if the chain is not empty, `next` is the
`fn` of the entry shifted off it, bound to the same chain, else `next` is `undefined`; then
`fn(request, next, options)`, recorded in the trace.
The index `n` bounds the length of the chain array.  The calls of `next` work on the chain
without the entry shifted, of length at most `n - 1`: that is what the definition descends
on.  A chain that is not empty under the bound 0 does not exist. -/
def Wrapped.call (chain : Nat) : (n : Nat) → Wrapped → Val → Bounded chain n →
    Outcome × Bounded chain n
  | n, w, request, s =>
    match hc : s.1.heap.readArray chain with
    | [] =>
      runAct none (w.fn.body request false w.options)
        ⟨{ heap := s.1.heap, trace := s.1.trace ++ [⟨w.fn.id, request, none, w.options⟩] }, s.2⟩
    | e :: rest =>
      match n, s, hc with
      | m + 1, s, hc =>
        let r := runAct (some (Wrapped.call chain m e.fn)) (w.fn.body request true w.options)
          ⟨{ heap := s.1.heap.writeArray chain rest,
             trace := s.1.trace ++ [⟨w.fn.id, request, some e.fn.fn.id, w.options⟩] },
           by
             have h2 := s.2
             rw [hc] at h2
             have h3 : ((s.1.heap.writeArray chain rest).readArray chain).length ≤ rest.length := by
               unfold Heap.readArray Heap.writeArray
               by_cases ha : chain < s.1.heap.arrays.length
               · simp [List.getD_eq_getElem?_getD, ha]
               · have h4 : (s.1.heap.arrays.set chain rest)[chain]? = none := by
                   apply List.getElem?_eq_none
                   simpa using ha
                 simp [List.getD_eq_getElem?_getD, h4]
             exact Nat.le_trans h3 (Nat.le_of_succ_le_succ h2)⟩
        (r.1, ⟨r.2.1, Nat.le_succ_of_le r.2.2⟩)
      | 0, s, hc => absurd s.2 (by rw [hc]; exact Nat.not_succ_le_zero _)

/-- The platform: the `Request` constructor (which may throw) and `window.fetch`. -/
structure Window where
  newRequest : String → Val → Except Err Request
  fetch : MiddlewareFn

/-- `fetch(input, options)` on the object at address `this`: the completion and the state
after.  A string input is replaced by `new Request(input, options)`, which may throw; an
input that is no `Request` then gives `Promise.reject(new TypeError(...))`; else the chain is
a copy of the installed entries with the wrapped `window.fetch` pushed at its end, and the
`fn` of the entry shifted off it is called on the chain and the request.  (`shift()` gives
`undefined` on an empty array only, which the chain is not after the push.) -/
def fetch (window : Window) (this : Nat) (input options : Val) (s : St) : Outcome × St :=
  match (match input with
         | .str url => (window.newRequest url options).map Val.request
         | v => Except.ok v) with
  | .error e => (.error e, s)
  | .ok (.request r) =>
    let c := s.heap.slice (s.heap.field this)
    let h2 := c.2.push c.1 ⟨"fetch", _wrapMiddleware window.fetch .undefined⟩
    match h2.shift c.1 with
    | (none, h3) => (.error noFnOfUndefined, ⟨h3, s.trace⟩)
    | (some first, h3) =>
      let r := first.fn.call c.1 (h3.readArray c.1).length (.request r)
        ⟨⟨h3, s.trace⟩, Nat.le_refl _⟩
      (r.1, r.2.1)
  | .ok _ => (.ok (.rejected (.typeError "Invalid input argument(s) supplied.")), s)

/-! ## Registration -/

/-- A JavaScript value where a function may stand: a data value or a function. -/
inductive Field where
  | data (v : Val)
  | func (f : MiddlewareFn)

/-- Truthiness of a data value. -/
def Val.truthy : Val → Bool
  | .undefined => false
  | .null => false
  | .bool b => b
  | .num n => n != 0
  | .str s => s != ""
  | .obj _ => true
  | .request _ => true
  | .rejected _ => true

/-- The `typeof` of a data value. -/
def Val.typeof : Val → String
  | .undefined => "undefined"
  | .null => "object"
  | .bool _ => "boolean"
  | .num _ => "number"
  | .str _ => "string"
  | .obj _ => "object"
  | .request _ => "object"
  | .rejected _ => "object"

/-- Truthiness of a value. -/
def Field.truthy : Field → Bool
  | .data v => v.truthy
  | .func _ => true

/-- The `typeof` of a value. -/
def Field.typeof : Field → String
  | .data v => v.typeof
  | .func _ => "function"

/-- Strict equality `x === s` of a value with a string. -/
def Field.strictEqString : Field → String → Bool
  | .data (.str t), s => t == s
  | _, _ => false

/-- What `use` and `addTemp` may be given as `middleware`: `plain x` is a value whose
properties `name` and `fn` read `undefined`; `record name fn options` is an object with these
properties (`options` reads `undefined` when the object has none). -/
inductive Arg where
  | plain (x : Field)
  | record (name fn : Field) (options : Val)

namespace Arg

/-- Truthiness of the argument. -/
def truthy : Arg → Bool
  | .plain x => x.truthy
  | .record _ _ _ => true

/-- The `typeof` of the argument. -/
def typeof : Arg → String
  | .plain x => x.typeof
  | .record _ _ _ => "object"

/-- The property `name`. -/
def name : Arg → Field
  | .plain _ => .data .undefined
  | .record n _ _ => n

/-- The property `fn`. -/
def fn : Arg → Field
  | .plain _ => .data .undefined
  | .record _ f _ => f

/-- The property `options`. -/
def options : Arg → Val
  | .plain _ => .undefined
  | .record _ _ o => o

end Arg

/-- A verified middleware, destructured: `const { name, fn, options } = ...`. -/
structure Middleware where
  name : String
  fn : MiddlewareFn
  options : Val

/-- The error of a middleware that is no object. -/
def notAnObject : Err :=
  .typeError "Middleware parameter is undefined/null/empty or not an object"

/-- The error of a middleware object whose `name` or `fn` is not as required. -/
def badNameOrFn : Err :=
  .typeError "Middleware name/function is undefined or not a string/function"

/-- `_verifyMiddleware(middleware)`.  The inner test
`name && typeof name === 'string' && fn && typeof fn === 'function'` is the match on a
string `name` that is not empty and a function `fn`. -/
def _verifyMiddleware (middleware : Arg) : Except Err Middleware :=
  if middleware.truthy && middleware.typeof == "object" then
    match middleware.name, middleware.fn with
    | .data (.str s), .func f =>
      if s != "" then .ok ⟨s, f, middleware.options⟩ else .error badNameOrFn
    | _, _ => .error badNameOrFn
  else
    .error notAnObject

/-- `new D2LFetch()`: the constructor allocates an empty array and the object. -/
def D2LFetch.new (h : Heap) : Nat × Heap :=
  let a := h.newArray []
  a.2.newObject ⟨a.1⟩

/-- `use(middleware)` on the object at address `this`: the completion and the heap after. -/
def use (this : Nat) (middleware : Arg) (h : Heap) : Except Err Unit × Heap :=
  match _verifyMiddleware middleware with
  | .error e => (.error e, h)
  | .ok m => (.ok (), h.push (h.field this) ⟨m.name, _wrapMiddleware m.fn m.options⟩)

/-- The second argument of `addTemp`: absent (`undefined`), `null`, or any other value,
given by what its property `prepend` reads. -/
inductive AddTempOptions where
  | undefined
  | null
  | value (prepend : Val)

/-- The error of destructuring `null`. -/
def cannotDestructure : Err :=
  .typeError "Cannot destructure property prepend of null"

/-- The parameter pattern of `addTemp`: the value bound to `prepend`. -/
def AddTempOptions.prepend : AddTempOptions → Except Err Val
  | .undefined => .ok (.bool false)
  | .null => .error cannotDestructure
  | .value p => .ok (if p = .undefined then .bool false else p)

/-- `addTemp(middleware, options)` on the object at address `this`: the completion (the address
of the new object) and the heap after. -/
def addTemp (this : Nat) (middleware : Arg) (options : AddTempOptions) (h : Heap) :
    Except Err Nat × Heap :=
  match options.prepend with
  | .error e => (.error e, h)
  | .ok prepend =>
    match _verifyMiddleware middleware with
    | .error e => (.error e, h)
    | .ok m =>
      let self := D2LFetch.new h
      let a := self.2.slice (self.2.field this)
      let h3 := a.2.setField self.1 a.1
      let toAdd : Entry := ⟨m.name, _wrapMiddleware m.fn m.options⟩
      if prepend.truthy then
        (.ok self.1, h3.unshift (h3.field self.1) toAdd)
      else
        (.ok self.1, h3.push (h3.field self.1) toAdd)

/-- The error of `removeTemp` on a bad name. -/
def badName : Err := .typeError "Middleware name must be a non-empty string"

/-- `removeTemp(name)` on the object at address `this`: the completion (the address of the new
object) and the heap after. -/
def removeTemp (this : Nat) (name : Field) (h : Heap) : Except Err Nat × Heap :=
  if !name.truthy || name.typeof != "string" then
    (.error badName, h)
  else
    let self := D2LFetch.new h
    let a := self.2.filter (self.2.field this) (fun middleware => !name.strictEqString middleware.name)
    (.ok self.1, a.2.setField self.1 a.1)

/-! ## Notions used to state the properties -/

/-- Completion of an activation whose `next` is `undefined`: every `next(x)` in it throws the
`TypeError` of calling `undefined`.  For an activation that never calls `next` this is just the
value it returns or the exception it throws. -/
def Act.withoutNext : Act → Outcome
  | .ret v => .ok v
  | .throw e => .error e
  | .callNext _ k => (k (.error notAFunction)).withoutNext

/-- The activation does not call `next`. -/
def Act.NoCall : Act → Prop
  | .callNext _ _ => False
  | _ => True

/-- The activation calls `next` exactly once. -/
def Act.CallsOnce : Act → Prop
  | .callNext _ k => ∀ o, (k o).NoCall
  | _ => False

/-- The activation calls `next` at most once. -/
def Act.AtMostOnce : Act → Prop
  | .callNext _ k => ∀ o, (k o).NoCall
  | _ => True

/-- The activation calls `next` once and completes as that call did: `return next(x)`. -/
def Act.PassesOn : Act → Prop
  | .callNext _ k => ∀ o, k o = (match o with | .ok v => Act.ret v | .error e => Act.throw e)
  | _ => False

/-- Every activation of the function calls `next` exactly once. -/
def MiddlewareFn.CallsNextOnce (f : MiddlewareFn) : Prop :=
  ∀ x b o, (f.body x b o).CallsOnce

/-- Every activation of the function calls `next` at most once. -/
def MiddlewareFn.CallsNextAtMostOnce (f : MiddlewareFn) : Prop :=
  ∀ x b o, (f.body x b o).AtMostOnce

/-- Every activation of the function is `return next(x)` for some `x`. -/
def MiddlewareFn.PassesOn (f : MiddlewareFn) : Prop :=
  ∀ x b o, (f.body x b o).PassesOn

/-- No activation of the function calls `next`. -/
def MiddlewareFn.NeverCallsNext (f : MiddlewareFn) : Prop :=
  ∀ x b o, (f.body x b o).NoCall

/-- The input of `fetch` is accepted and normalized to the request `r`: it is the request
object `r`, or a string from which the `Request` constructor builds `r`. -/
def Accepted (window : Window) (input options : Val) (r : Request) : Prop :=
  input = .request r ∨ ∃ url, input = .str url ∧ window.newRequest url options = .ok r

/-- The entry `fetch` pushes at the end of the chain: the wrapped `window.fetch`. -/
def transportEntry (window : Window) : Entry :=
  ⟨"fetch", _wrapMiddleware window.fetch .undefined⟩

/-- The object at `this` exists and its field holds the address of an existing array. -/
def Heap.Valid (h : Heap) (this : Nat) : Prop :=
  this < h.objects.length ∧ h.field this < h.arrays.length

instance (h : Heap) (this : Nat) : Decidable (h.Valid this) := by
  unfold Heap.Valid
  infer_instance

/-- The identities of the functions called, in the order of the calls. -/
def calledFns (t : List Call) : List Nat := t.map Call.fn

/-- The identities of the functions of a list of entries, in order. -/
def fnIds (l : List Entry) : List Nat := l.map (fun e => e.fn.fn.id)

/-! ## The chain with a frozen remainder -/

/-- Following the specification, not the code: a call of the link `w` whose `next` is bound
to the remainder `rest` of the chain as it is when the link runs.  Every invocation of that
`next` calls the first link of `rest` with the links after it as its own remainder. -/
def frozenCall : List Entry → Wrapped → Val → List Call → Outcome × List Call
  | [], w, x, t =>
    runAct none (w.fn.body x false w.options) (t ++ [⟨w.fn.id, x, none, w.options⟩])
  | e :: rest, w, x, t =>
    runAct (some (frozenCall rest e.fn)) (w.fn.body x true w.options)
      (t ++ [⟨w.fn.id, x, some e.fn.fn.id, w.options⟩])

/-- Following the specification: `fetch` of the request `r` over the installed entries
followed by the transport, every `next` bound to a frozen remainder. -/
def frozenFetch (window : Window) (installed : List Entry) (r : Request) (t : List Call) :
    Outcome × List Call :=
  match installed ++ [transportEntry window] with
  | [] => (.error noFnOfUndefined, t)
  | first :: rest => frozenCall rest first.fn (.request r) t

/-- The chain of `fetch` behaves as a chain with frozen remainders: same completion, same
calls with the same arguments in the same order. -/
def NextIsFrozen (window : Window) (this : Nat) (input options : Val) (s : St)
    (r : Request) : Prop :=
  (fetch window this input options s).1 =
      (frozenFetch window (s.heap.installed this) r s.trace).1 ∧
    (fetch window this input options s).2.trace =
      (frozenFetch window (s.heap.installed this) r s.trace).2

/-- Along the chain `w, l`, every function with at least two links after it calls `next` at
most once. -/
def SinglePass : Wrapped → List Entry → Prop
  | w, e :: e2 :: rest => w.fn.CallsNextAtMostOnce ∧ SinglePass e.fn (e2 :: rest)
  | _, _ => True

/-! ## Requests -/

/-- The value is a request object. -/
def Val.IsRequest (v : Val) : Prop := ∃ r, v = .request r

/-- Every call of `next` in the activation has an argument that satisfies `P`. -/
def Act.NextArgs (P : Val → Prop) : Act → Prop
  | .ret _ => True
  | .throw _ => True
  | .callNext x k => P x ∧ ∀ o, (k o).NextArgs P

/-- Given a request object, the function calls `next` with request objects only. -/
def MiddlewareFn.PassesRequests (f : MiddlewareFn) : Prop :=
  ∀ x b o, x.IsRequest → (f.body x b o).NextArgs Val.IsRequest

/-- Every call a `fetch` makes has a request object as first argument. -/
def CallsGetRequests (window : Window) (this : Nat) (input options : Val) (s : St) : Prop :=
  ∀ new, (fetch window this input options s).2.trace = s.trace ++ new →
    ∀ k ∈ new, k.request.IsRequest

/-! ## Reachable heaps -/

/-- The names of the entries, in order. -/
def names (l : List Entry) : List String := l.map Entry.name

/-- The heaps reached from the empty heap by `new D2LFetch()` and by calls of `use`, `addTemp`
and `removeTemp` on objects of the heap.  `admitted l a` tells which middleware arguments `a`
a receiver with the entries `l` is given. -/
inductive Reachable (admitted : List Entry → Arg → Prop) : Heap → Prop where
  | empty : Reachable admitted ⟨[], []⟩
  | construct (h : Heap) : Reachable admitted h → Reachable admitted (D2LFetch.new h).2
  | use (h : Heap) (this : Nat) (a : Arg) : Reachable admitted h → this < h.objects.length →
      admitted (h.installed this) a → Reachable admitted (D2L.use this a h).2
  | addTemp (h : Heap) (this : Nat) (a : Arg) (options : AddTempOptions) :
      Reachable admitted h → this < h.objects.length → admitted (h.installed this) a →
      Reachable admitted (D2L.addTemp this a options h).2
  | removeTemp (h : Heap) (this : Nat) (name : Field) : Reachable admitted h →
      this < h.objects.length → Reachable admitted (D2L.removeTemp this name h).2

/-- Any middleware argument is admitted. -/
def AnyArg : List Entry → Arg → Prop := fun _ _ => True

/-- A middleware argument is admitted when its `name`, if a string, is not the name of an
entry of the receiver. -/
def FreshName : List Entry → Arg → Prop :=
  fun l a => ∀ s, a.name = .data (.str s) → s ∉ names l

/-- In every object of the heap the names of the entries are pairwise distinct. -/
def NamesDistinct (h : Heap) : Prop :=
  ∀ d, d < h.objects.length → (names (h.installed d)).Nodup

/-! ## Sample data -/

namespace Sample

/-- A request. -/
def request : Request := ⟨"/path/to/data", "GET"⟩

/-- The function `(request, next) => next(request)`. -/
def passOn (id : Nat) : MiddlewareFn :=
  ⟨id, fun x _ _ => .callNext x (fun o => match o with | .ok v => Act.ret v | .error e => Act.throw e)⟩

/-- The function `() => { return; }`. -/
def earlyExit (id : Nat) : MiddlewareFn := ⟨id, fun _ _ _ => .ret .undefined⟩

/-- A function that calls `next(request)` and, whatever came of it, calls it again and
returns what the second call returns. -/
def retry (id : Nat) : MiddlewareFn :=
  ⟨id, fun x _ _ => .callNext x (fun _ =>
    .callNext x (fun o => match o with | .ok v => Act.ret v | .error e => Act.throw e))⟩

/-- A platform whose `Request` constructor rejects the URL `http://` and whose `fetch`
returns the promise `obj 100`. -/
def window : Window :=
  ⟨fun url _ =>
      if url = "http://" then .error (.typeError "Failed to construct Request: Invalid URL")
      else .ok ⟨url, "GET"⟩,
    ⟨0, fun _ _ _ => .ret (.obj 100)⟩⟩

/-- A heap with one object, nothing installed. -/
def emptyHeap : Heap := ⟨[[]], [⟨0⟩]⟩

/-- A heap with one object, `passOn 1` and `passOn 2` installed, the second with options. -/
def twoPass : Heap :=
  ⟨[[⟨"first", ⟨passOn 1, .undefined⟩⟩, ⟨"second", ⟨passOn 2, .obj 5⟩⟩]], [⟨0⟩]⟩

/-- A heap with one object: `passOn 1`, `earlyExit 2`, `passOn 3` installed. -/
def passExitPass : Heap :=
  ⟨[[⟨"first", ⟨passOn 1, .undefined⟩⟩, ⟨"exit", ⟨earlyExit 2, .undefined⟩⟩,
     ⟨"third", ⟨passOn 3, .undefined⟩⟩]], [⟨0⟩]⟩

/-- A heap with one object: `retry 1`, `passOn 2` installed. -/
def retryPass : Heap :=
  ⟨[[⟨"retry", ⟨retry 1, .undefined⟩⟩, ⟨"second", ⟨passOn 2, .undefined⟩⟩]], [⟨0⟩]⟩

/-- A heap with one object: `passOn 1`, `retry 2` installed. -/
def passRetry : Heap :=
  ⟨[[⟨"first", ⟨passOn 1, .undefined⟩⟩, ⟨"retry", ⟨retry 2, .undefined⟩⟩]], [⟨0⟩]⟩

/-- The middleware `{ name: 'third', fn: passOn 3 }`. -/
def third : Arg := .record (.data (.str "third")) (.func (passOn 3)) .undefined

/-- The middleware `{ name: 'fourth', fn: passOn 4, options: obj 9 }`. -/
def fourth : Arg := .record (.data (.str "fourth")) (.func (passOn 4)) (.obj 9)

/-- A platform whose `Request` constructor takes the method `PUT` for the options `obj 1` and
`GET` otherwise, and whose `fetch` returns a promise rejected with `other 7`. -/
def putWindow : Window :=
  ⟨fun url o => .ok ⟨url, if o = .obj 1 then "PUT" else "GET"⟩,
    ⟨0, fun _ _ _ => .ret (.rejected (.other 7))⟩⟩

/-- The function `(request, next) => next(42)`. -/
def sendNumber (id : Nat) : MiddlewareFn :=
  ⟨id, fun _ _ _ => .callNext (.num 42)
    (fun o => match o with | .ok v => Act.ret v | .error e => Act.throw e)⟩

/-- A heap with one object: `sendNumber 1`, `passOn 2` installed. -/
def numberPass : Heap :=
  ⟨[[⟨"number", ⟨sendNumber 1, .undefined⟩⟩, ⟨"second", ⟨passOn 2, .undefined⟩⟩]], [⟨0⟩]⟩

/-- The heap after `d = new D2LFetch(); d.use(third); d.use(third)`. -/
def usedTwice : Heap := (use 0 third (use 0 third (D2LFetch.new ⟨[], []⟩).2).2).2

/-- The heap after `d = new D2LFetch(); d.use(third); d.addTemp(fourth)`. -/
def usedThenAdded : Heap :=
  (addTemp 0 fourth .undefined (use 0 third (D2LFetch.new ⟨[], []⟩).2).2).2

/-- A heap with one object: `passOn 3` installed under the name `a`. -/
def holdsThree : Heap := ⟨[[⟨"a", ⟨passOn 3, .undefined⟩⟩]], [⟨0⟩]⟩

end Sample

/-! ## Receivers -/

/-- Two heaps hold the object `this` alike: its field has the same address in both, the array
at that address has the same entries in the same order, and every `fetch` on `this` completes
alike and makes the same calls in both. -/
def SameReceiver (window : Window) (h1 h2 : Heap) (this : Nat) : Prop :=
  h2.field this = h1.field this ∧ h2.installed this = h1.installed this ∧
  ∀ (input options : Val) (t : List Call),
    (fetch window this input options ⟨h2, t⟩).1 = (fetch window this input options ⟨h1, t⟩).1 ∧
    (fetch window this input options ⟨h2, t⟩).2.trace =
      (fetch window this input options ⟨h1, t⟩).2.trace

/-- In the heap `h`, `self` is another object than `this`, with another array. -/
def OtherObject (h : Heap) (this self : Nat) : Prop :=
  self ≠ this ∧ h.field self ≠ h.field this

/-! ## Well-formed arguments -/

/-- Following the specification: the middleware argument is a non-null object whose `name` is
a non-empty string and whose `fn` is callable.  Nothing is asked of `options`. -/
def Arg.WellFormed (a : Arg) : Prop :=
  a.typeof = "object" ∧ a.truthy = true ∧
    a.name.typeof = "string" ∧ a.name.truthy = true ∧ a.fn.typeof = "function"

/-- Following the specification: the value is a non-empty string. -/
def Field.NonEmptyString (x : Field) : Prop :=
  ∃ s, x = .data (.str s) ∧ s ≠ ""

/-- The exception is a `TypeError`. -/
def Err.IsTypeError (e : Err) : Prop := ∃ message, e = .typeError message

/-! ## The heap -/

namespace Heap

theorem lt_of_readArray_ne_nil {h : Heap} {a : Nat} (hne : h.readArray a ≠ []) :
    a < h.arrays.length := by
  by_contra hlt
  apply hne
  unfold readArray
  rw [List.getD_eq_getElem?_getD, List.getElem?_eq_none (by omega)]
  rfl

theorem readArray_writeArray_same (h : Heap) (a : Nat) (l : List Entry)
    (ha : a < h.arrays.length) : (h.writeArray a l).readArray a = l := by
  unfold readArray writeArray
  simp [List.getD_eq_getElem?_getD, ha]

theorem readArray_writeArray_other (h : Heap) (a b : Nat) (l : List Entry) (hab : a ≠ b) :
    (h.writeArray a l).readArray b = h.readArray b := by
  unfold readArray writeArray
  simp [List.getD_eq_getElem?_getD, List.getElem?_set_ne hab]

@[simp] theorem arrays_length_writeArray (h : Heap) (a : Nat) (l : List Entry) :
    (h.writeArray a l).arrays.length = h.arrays.length := by
  simp [writeArray]

@[simp] theorem objects_writeArray (h : Heap) (a : Nat) (l : List Entry) :
    (h.writeArray a l).objects = h.objects := rfl

@[simp] theorem field_writeArray (h : Heap) (a o : Nat) (l : List Entry) :
    (h.writeArray a l).field o = h.field o := rfl

@[simp] theorem newArray_fst (h : Heap) (l : List Entry) : (h.newArray l).1 = h.arrays.length := rfl

@[simp] theorem arrays_length_newArray (h : Heap) (l : List Entry) :
    (h.newArray l).2.arrays.length = h.arrays.length + 1 := by
  simp [newArray]

@[simp] theorem objects_newArray (h : Heap) (l : List Entry) :
    (h.newArray l).2.objects = h.objects := rfl

@[simp] theorem field_newArray (h : Heap) (l : List Entry) (o : Nat) :
    (h.newArray l).2.field o = h.field o := rfl

theorem readArray_newArray_new (h : Heap) (l : List Entry) :
    (h.newArray l).2.readArray h.arrays.length = l := by
  unfold readArray newArray
  simp [List.getD_eq_getElem?_getD]

theorem readArray_newArray_old (h : Heap) (l : List Entry) (a : Nat) (ha : a < h.arrays.length) :
    (h.newArray l).2.readArray a = h.readArray a := by
  unfold readArray newArray
  simp [List.getD_eq_getElem?_getD, List.getElem?_append_left ha]

end Heap

/-! ## Activations -/

theorem runAct_none {σ : Type} (a : Act) (s : σ) : runAct none a s = (a.withoutNext, s) := by
  induction a generalizing s with
  | ret v => rfl
  | throw e => rfl
  | callNext x k ih => simp [runAct, Act.withoutNext, ih]

theorem runAct_noCall {σ : Type} (next : Option (Val → σ → Outcome × σ)) (a : Act) (s : σ)
    (h : a.NoCall) : runAct next a s = (a.withoutNext, s) := by
  cases a with
  | ret v => rfl
  | throw e => rfl
  | callNext x k => exact absurd h (by simp [Act.NoCall])

/-- An invariant of the state that every call of `next` keeps is kept by the activation. -/
theorem runAct_invariant {σ : Type} (I : σ → Prop) (f : Val → σ → Outcome × σ)
    (hf : ∀ x s, I s → I (f x s).2) (a : Act) (s : σ) (hs : I s) :
    I (runAct (some f) a s).2 := by
  induction a generalizing s with
  | ret v => exact hs
  | throw e => exact hs
  | callNext x k ih =>
    simp only [runAct]
    exact ih _ _ (hf x s hs)

/-- Two activations of the same function whose `next` functions complete alike on related
states complete alike, in related states. -/
theorem runAct_simulation {σ τ : Type} (R : σ → τ → Prop)
    (f : Val → σ → Outcome × σ) (g : Val → τ → Outcome × τ)
    (hfg : ∀ x s t, R s t → (f x s).1 = (g x t).1 ∧ R (f x s).2 (g x t).2)
    (a : Act) (s : σ) (t : τ) (hst : R s t) :
    (runAct (some f) a s).1 = (runAct (some g) a t).1 ∧
      R (runAct (some f) a s).2 (runAct (some g) a t).2 := by
  induction a generalizing s t with
  | ret v => exact ⟨rfl, hst⟩
  | throw e => exact ⟨rfl, hst⟩
  | callNext x k ih =>
    simp only [runAct]
    obtain ⟨h1, h2⟩ := hfg x s t hst
    rw [h1]
    exact ih _ _ _ h2

/-! ## The sample functions -/

theorem Sample.passOn_passesOn (id : Nat) : (Sample.passOn id).PassesOn := by
  intro x b o out
  rfl

theorem Sample.passOn_callsNextOnce (id : Nat) : (Sample.passOn id).CallsNextOnce := by
  intro x b o out
  cases out <;> trivial

theorem Sample.passOn_callsNextAtMostOnce (id : Nat) :
    (Sample.passOn id).CallsNextAtMostOnce := by
  intro x b o out
  cases out <;> trivial

theorem Sample.earlyExit_neverCallsNext (id : Nat) : (Sample.earlyExit id).NeverCallsNext := by
  intro x b o
  trivial

/-! ## The wrapper -/

theorem Wrapped.call_nil (chain n : Nat) (w : Wrapped) (x : Val) (s : Bounded chain n)
    (hc : s.1.heap.readArray chain = []) :
    Wrapped.call chain n w x s = (( w.fn.body x false w.options).withoutNext,
      ⟨{ heap := s.1.heap, trace := s.1.trace ++ [⟨w.fn.id, x, none, w.options⟩] }, s.2⟩) := by
  rw [← runAct_none]
  unfold Wrapped.call
  split
  · rfl
  · rename_i e rest heq
    rw [hc] at heq
    cases heq

theorem Wrapped.call_cons (chain m : Nat) (w : Wrapped) (x : Val) (s : Bounded chain (m + 1))
    (e : Entry) (rest : List Entry) (hc : s.1.heap.readArray chain = e :: rest) :
    ∃ s1 : Bounded chain m,
      s1.1.heap = s.1.heap.writeArray chain rest ∧
      s1.1.trace = s.1.trace ++ [⟨w.fn.id, x, some e.fn.fn.id, w.options⟩] ∧
      (Wrapped.call chain (m + 1) w x s).1 =
        (runAct (some (Wrapped.call chain m e.fn)) (w.fn.body x true w.options) s1).1 ∧
      (Wrapped.call chain (m + 1) w x s).2.1 =
        (runAct (some (Wrapped.call chain m e.fn)) (w.fn.body x true w.options) s1).2.1 := by
  have hlt : chain < s.1.heap.arrays.length :=
    Heap.lt_of_readArray_ne_nil (by rw [hc]; simp)
  have hb : ((s.1.heap.writeArray chain rest).readArray chain).length ≤ m := by
    rw [Heap.readArray_writeArray_same _ _ _ hlt]
    have h2 := s.2
    rw [hc] at h2
    exact Nat.le_of_succ_le_succ h2
  refine ⟨⟨{ heap := s.1.heap.writeArray chain rest,
             trace := s.1.trace ++ [⟨w.fn.id, x, some e.fn.fn.id, w.options⟩] }, hb⟩,
    rfl, rfl, ?_, ?_⟩
  all_goals
    rw [Wrapped.call]
    split
    · rename_i heq
      rw [hc] at heq
      cases heq
    · rename_i e2 rest2 heq
      have := hc.symm.trans heq
      cases this
      rfl

/-! ## `fetch` -/

theorem Heap.shift_cons (h : Heap) (a : Nat) (e : Entry) (rest : List Entry)
    (hc : h.readArray a = e :: rest) : h.shift a = (some e, h.writeArray a rest) := by
  unfold Heap.shift
  rw [hc]

theorem normalize_accepted (window : Window) (input options : Val) (r : Request)
    (hacc : Accepted window input options r) :
    (match input with
      | .str url => (window.newRequest url options).map Val.request
      | v => Except.ok v) = Except.ok (Val.request r) := by
  rcases hacc with rfl | ⟨url, rfl, hreq⟩
  · rfl
  · simp [hreq, Except.map]

/-- On an accepted input `fetch` is one call of the first wrapper of the chain, the chain
being a new array that holds the rest of the installed entries and the transport. -/
theorem fetch_accepted (window : Window) (this : Nat) (input options : Val) (s : St)
    (r : Request) (first : Entry) (rest : List Entry)
    (hacc : Accepted window input options r)
    (hfr : s.heap.installed this ++ [transportEntry window] = first :: rest) :
    ∃ (n : Nat) (b : Bounded s.heap.arrays.length n),
      b.1.trace = s.trace ∧ b.1.heap.readArray s.heap.arrays.length = rest ∧
      b.1.heap.objects = s.heap.objects ∧
      b.1.heap.arrays.length = s.heap.arrays.length + 1 ∧
      (∀ a, a < s.heap.arrays.length → b.1.heap.readArray a = s.heap.readArray a) ∧
      fetch window this input options s =
        ((Wrapped.call s.heap.arrays.length n first.fn (.request r) b).1,
         (Wrapped.call s.heap.arrays.length n first.fn (.request r) b).2.1) := by
  have hpush : ((s.heap.slice (s.heap.field this)).2.push (s.heap.slice (s.heap.field this)).1
      ⟨"fetch", _wrapMiddleware window.fetch .undefined⟩).readArray s.heap.arrays.length
      = first :: rest := by
    unfold Heap.push Heap.slice
    simp only [Heap.newArray_fst]
    rw [Heap.readArray_writeArray_same _ _ _ (by simp), Heap.readArray_newArray_new]
    exact hfr
  have hshift := Heap.shift_cons _ _ _ _ hpush
  refine ⟨_, ⟨⟨(((s.heap.slice (s.heap.field this)).2.push
      (s.heap.slice (s.heap.field this)).1
      ⟨"fetch", _wrapMiddleware window.fetch .undefined⟩).writeArray s.heap.arrays.length rest),
      s.trace⟩, Nat.le_refl _⟩, rfl, ?_, rfl, ?_, ?_, ?_⟩
  · exact Heap.readArray_writeArray_same _ _ _ (by simp [Heap.push, Heap.slice])
  · simp [Heap.push, Heap.slice]
  · intro a ha
    rw [Heap.readArray_writeArray_other _ _ _ _ (by omega)]
    unfold Heap.push Heap.slice
    simp only [Heap.newArray_fst]
    rw [Heap.readArray_writeArray_other _ _ _ _ (by omega), Heap.readArray_newArray_old _ _ _ ha]
  · unfold fetch
    rw [normalize_accepted window input options r hacc]
    simp only [Heap.slice, Heap.newArray_fst] at hshift ⊢
    rw [hshift]

/-! ## Order of the calls -/

theorem bound_pos_of_cons {chain n : Nat} (s : Bounded chain n) {e : Entry} {rest : List Entry}
    (hc : s.1.heap.readArray chain = e :: rest) : ∃ m, n = m + 1 := by
  have h2 := s.2
  rw [hc] at h2
  cases n with
  | zero => exact absurd h2 (Nat.not_succ_le_zero _)
  | succ m => exact ⟨m, rfl⟩

/-- A wrapper whose function calls `next` exactly once, on a chain that is not empty: the
state it ends in is the state in which its one call of the next wrapper ends. -/
theorem Wrapped.call_once_step (chain m : Nat) (w : Wrapped) (x : Val)
    (s : Bounded chain (m + 1)) (e : Entry) (rest : List Entry)
    (hc : s.1.heap.readArray chain = e :: rest) (hw : w.fn.CallsNextOnce) :
    ∃ (y : Val) (s1 : Bounded chain m),
      s1.1.heap.readArray chain = rest ∧
      s1.1.trace = s.1.trace ++ [⟨w.fn.id, x, some e.fn.fn.id, w.options⟩] ∧
      (Wrapped.call chain (m + 1) w x s).2.1 = (Wrapped.call chain m e.fn y s1).2.1 := by
  obtain ⟨s1, hheap, htrace, -, hst⟩ := Wrapped.call_cons chain m w x s e rest hc
  have hlt : chain < s.1.heap.arrays.length :=
    Heap.lt_of_readArray_ne_nil (by rw [hc]; simp)
  have hone := hw x true w.options
  cases hbody : w.fn.body x true w.options with
  | ret v => rw [hbody] at hone; exact absurd hone (by simp [Act.CallsOnce])
  | throw err => rw [hbody] at hone; exact absurd hone (by simp [Act.CallsOnce])
  | callNext y k =>
    rw [hbody] at hone hst
    refine ⟨y, s1, ?_, htrace, ?_⟩
    · rw [hheap, Heap.readArray_writeArray_same _ _ _ hlt]
    · rw [hst]
      simp only [runAct]
      rw [runAct_noCall _ _ _ (hone _)]

theorem Wrapped.call_calledFns_once (chain : Nat) (t : Entry) :
    ∀ (es : List Entry) (n : Nat) (w : Wrapped) (x : Val) (s : Bounded chain n),
      s.1.heap.readArray chain = es ++ [t] → w.fn.CallsNextOnce →
      (∀ e ∈ es, e.fn.fn.CallsNextOnce) →
      calledFns (Wrapped.call chain n w x s).2.1.trace =
        calledFns s.1.trace ++ w.fn.id :: fnIds es ++ [t.fn.fn.id] := by
  intro es
  induction es with
  | nil =>
    intro n w x s hc hw _
    obtain ⟨m, rfl⟩ := bound_pos_of_cons s hc
    obtain ⟨y, s1, hchain, htrace, hst⟩ := Wrapped.call_once_step chain m w x s t [] hc hw
    rw [hst, Wrapped.call_nil chain m t.fn y s1 hchain]
    simp [calledFns, fnIds, htrace]
  | cons e es ih =>
    intro n w x s hc hw hes
    obtain ⟨m, rfl⟩ := bound_pos_of_cons s hc
    obtain ⟨y, s1, hchain, htrace, hst⟩ :=
      Wrapped.call_once_step chain m w x s e (es ++ [t]) hc hw
    rw [hst, ih m e.fn y s1 hchain (hes e (List.mem_cons_self _ _))
      (fun e2 he2 => hes e2 (List.mem_cons_of_mem _ he2))]
    simp [calledFns, fnIds, htrace]

/-- C1 (order): when every installed function calls its `next` exactly once, one `fetch` on
an accepted input calls the installed functions in the order of the list, each before the
following one, and `window.fetch` last. -/
theorem fetch_calls_in_registration_order (window : Window) (this : Nat) (input options : Val)
    (s : St) (r : Request) (hacc : Accepted window input options r)
    (honce : ∀ e ∈ s.heap.installed this, e.fn.fn.CallsNextOnce) :
    calledFns (fetch window this input options s).2.trace =
      calledFns s.trace ++ fnIds (s.heap.installed this) ++ [window.fetch.id] := by
  cases hL : s.heap.installed this with
  | nil =>
    obtain ⟨n, b, htrace, hchain, -, -, -, hfetch⟩ :=
      fetch_accepted window this input options s r (transportEntry window) [] hacc
        (by rw [hL]; rfl)
    rw [hfetch, Wrapped.call_nil _ n _ _ b hchain]
    simp [calledFns, fnIds, htrace, transportEntry, _wrapMiddleware]
  | cons a l =>
    obtain ⟨n, b, htrace, hchain, -, -, -, hfetch⟩ :=
      fetch_accepted window this input options s r a (l ++ [transportEntry window]) hacc
        (by rw [hL]; rfl)
    rw [hL] at honce
    rw [hfetch]
    simp only []
    rw [Wrapped.call_calledFns_once _ (transportEntry window) l n a.fn _ b hchain
      (honce a (List.mem_cons_self _ _)) (fun e he => honce e (List.mem_cons_of_mem _ he))]
    simp [calledFns, fnIds, htrace, transportEntry, _wrapMiddleware]

/-- With `passOn 1` and `passOn 2` installed, the functions called are 1, 2 and then
`window.fetch` (0). -/
theorem fetch_calls_in_registration_order_witness :
    Accepted Sample.window (.request Sample.request) .undefined Sample.request ∧
    (∀ e ∈ Sample.twoPass.installed 0, e.fn.fn.CallsNextOnce) ∧
    calledFns (fetch Sample.window 0 (.request Sample.request) .undefined
      ⟨Sample.twoPass, []⟩).2.trace = [1, 2, 0] := by
  have hyp : ∀ e ∈ Sample.twoPass.installed 0, e.fn.fn.CallsNextOnce := by
    intro e he
    simp [Sample.twoPass, Heap.installed, Heap.readArray, Heap.field] at he
    rcases he with rfl | rfl <;> exact Sample.passOn_callsNextOnce _
  exact ⟨Or.inl rfl, hyp,
    fetch_calls_in_registration_order Sample.window 0 (.request Sample.request) .undefined
      ⟨Sample.twoPass, []⟩ Sample.request (Or.inl rfl) hyp⟩

/-! ## Short circuit -/

/-- A wrapper whose function is `return next(y)`, on a chain that is not empty, completes as
its call of the next wrapper does. -/
theorem Wrapped.call_passesOn_step (chain m : Nat) (w : Wrapped) (x : Val)
    (s : Bounded chain (m + 1)) (e : Entry) (rest : List Entry)
    (hc : s.1.heap.readArray chain = e :: rest) (hw : w.fn.PassesOn) :
    ∃ (y : Val) (s1 : Bounded chain m),
      s1.1.heap.readArray chain = rest ∧
      s1.1.trace = s.1.trace ++ [⟨w.fn.id, x, some e.fn.fn.id, w.options⟩] ∧
      (Wrapped.call chain (m + 1) w x s).1 = (Wrapped.call chain m e.fn y s1).1 ∧
      (Wrapped.call chain (m + 1) w x s).2.1 = (Wrapped.call chain m e.fn y s1).2.1 := by
  obtain ⟨s1, hheap, htrace, hout, hst⟩ := Wrapped.call_cons chain m w x s e rest hc
  have hlt : chain < s.1.heap.arrays.length :=
    Heap.lt_of_readArray_ne_nil (by rw [hc]; simp)
  have hone := hw x true w.options
  cases hbody : w.fn.body x true w.options with
  | ret v => rw [hbody] at hone; exact absurd hone (by simp [Act.PassesOn])
  | throw err => rw [hbody] at hone; exact absurd hone (by simp [Act.PassesOn])
  | callNext y k =>
    rw [hbody] at hone hst hout
    simp only [Act.PassesOn] at hone
    refine ⟨y, s1, ?_, htrace, ?_, ?_⟩
    · rw [hheap, Heap.readArray_writeArray_same _ _ _ hlt]
    · rw [hout]
      simp only [runAct]
      rw [hone]
      cases (Wrapped.call chain m e.fn y s1).1 <;> rfl
    · rw [hst]
      simp only [runAct]
      rw [hone]
      cases (Wrapped.call chain m e.fn y s1).1 <;> rfl

/-- A wrapper whose function does not call `next`, on a chain that is not empty: one call is
recorded and the completion is that of the function. -/
theorem Wrapped.call_noCall (chain n : Nat) (w : Wrapped) (x : Val)
    (s : Bounded chain n) (e : Entry) (rest : List Entry)
    (hc : s.1.heap.readArray chain = e :: rest) (hw : w.fn.NeverCallsNext) :
    (Wrapped.call chain n w x s).1 = (w.fn.body x true w.options).withoutNext ∧
    (Wrapped.call chain n w x s).2.1.trace =
      s.1.trace ++ [⟨w.fn.id, x, some e.fn.fn.id, w.options⟩] := by
  obtain ⟨m, rfl⟩ := bound_pos_of_cons s hc
  obtain ⟨s1, -, htrace, hout, hst⟩ := Wrapped.call_cons chain m w x s e rest hc
  rw [hout, hst, runAct_noCall _ _ _ (hw x true w.options)]
  exact ⟨rfl, htrace⟩

theorem Wrapped.call_short_circuit (chain : Nat) (mk p : Entry) (ps : List Entry)
    (hmk : mk.fn.fn.NeverCallsNext) :
    ∀ (pre : List Entry) (n : Nat) (w : Wrapped) (x : Val) (s : Bounded chain n),
      s.1.heap.readArray chain = pre ++ mk :: p :: ps → w.fn.PassesOn →
      (∀ e ∈ pre, e.fn.fn.PassesOn) →
      ∃ (t : List Call) (y : Val),
        (Wrapped.call chain n w x s).2.1.trace =
          s.1.trace ++ t ++ [⟨mk.fn.fn.id, y, some p.fn.fn.id, mk.fn.options⟩] ∧
        calledFns t = w.fn.id :: fnIds pre ∧
        (Wrapped.call chain n w x s).1 = (mk.fn.fn.body y true mk.fn.options).withoutNext := by
  intro pre
  induction pre with
  | nil =>
    intro n w x s hc hw _
    obtain ⟨m, rfl⟩ := bound_pos_of_cons s hc
    obtain ⟨y, s1, hchain, htrace, hout, hst⟩ :=
      Wrapped.call_passesOn_step chain m w x s mk (p :: ps) hc hw
    obtain ⟨h1, h2⟩ := Wrapped.call_noCall chain m mk.fn y s1 p ps hchain hmk
    refine ⟨[⟨w.fn.id, x, some mk.fn.fn.id, w.options⟩], y, ?_, ?_, ?_⟩
    · rw [hst, h2, htrace]
    · simp [calledFns, fnIds]
    · rw [hout, h1]
  | cons e es ih =>
    intro n w x s hc hw hes
    obtain ⟨m, rfl⟩ := bound_pos_of_cons s hc
    obtain ⟨y, s1, hchain, htrace, hout, hst⟩ :=
      Wrapped.call_passesOn_step chain m w x s e (es ++ mk :: p :: ps) hc hw
    obtain ⟨t, z, h1, h2, h3⟩ := ih m e.fn y s1 hchain (hes e (List.mem_cons_self _ _))
      (fun e2 he2 => hes e2 (List.mem_cons_of_mem _ he2))
    refine ⟨⟨w.fn.id, x, some e.fn.fn.id, w.options⟩ :: t, z, ?_, ?_, ?_⟩
    · rw [hst, h1, htrace]
      simp
    · simp [calledFns, fnIds] at h2 ⊢
      exact h2
    · rw [hout, h3]

/-- C2 (short circuit): when the installed functions before position k are `return next(y)`
and the function at position k does not call `next`, one `fetch` on an accepted input calls
the functions before k in order, then the function at k, and nothing else (no later function,
not `window.fetch`); `fetch` completes as the function at k completed: it returns the value
that function returned, `undefined` included. -/
theorem fetch_short_circuit (window : Window) (this : Nat) (input options : Val)
    (s : St) (r : Request) (pre post : List Entry) (mk : Entry)
    (hacc : Accepted window input options r)
    (hL : s.heap.installed this = pre ++ mk :: post)
    (hpre : ∀ e ∈ pre, e.fn.fn.PassesOn) (hmk : mk.fn.fn.NeverCallsNext) :
    ∃ (t : List Call) (y : Val) (nxt : Option Nat),
      (fetch window this input options s).2.trace =
        s.trace ++ t ++ [⟨mk.fn.fn.id, y, nxt, mk.fn.options⟩] ∧
      calledFns t = fnIds pre ∧
      (fetch window this input options s).1 =
        (mk.fn.fn.body y true mk.fn.options).withoutNext := by
  obtain ⟨p, ps, hps⟩ : ∃ p ps, post ++ [transportEntry window] = p :: ps := by
    cases post with
    | nil => exact ⟨_, _, rfl⟩
    | cons a l => exact ⟨a, l ++ [transportEntry window], rfl⟩
  cases pre with
  | nil =>
    obtain ⟨n, b, htrace, hchain, -, -, -, hfetch⟩ :=
      fetch_accepted window this input options s r mk (p :: ps) hacc
        (by rw [hL, ← hps]; rfl)
    obtain ⟨h1, h2⟩ := Wrapped.call_noCall _ n mk.fn (.request r) b p ps hchain hmk
    refine ⟨[], .request r, some p.fn.fn.id, ?_, rfl, ?_⟩
    · rw [hfetch]
      simp only []
      rw [h2, htrace]
      simp
    · rw [hfetch]
      exact h1
  | cons a l =>
    obtain ⟨n, b, htrace, hchain, -, -, -, hfetch⟩ :=
      fetch_accepted window this input options s r a (l ++ mk :: p :: ps) hacc
        (by rw [hL, ← hps]; simp)
    obtain ⟨t, y, h1, h2, h3⟩ := Wrapped.call_short_circuit _ mk p ps hmk l n a.fn
      (.request r) b hchain (hpre a (List.mem_cons_self _ _))
      (fun e he => hpre e (List.mem_cons_of_mem _ he))
    refine ⟨t, y, some p.fn.fn.id, ?_, ?_, ?_⟩
    · rw [hfetch]
      simp only []
      rw [h1, htrace]
    · simpa [calledFns, fnIds] using h2
    · rw [hfetch]
      exact h3

/-- With `passOn 1`, `earlyExit 2`, `passOn 3` installed, the calls are those of 1 and 2 and
`fetch` returns `undefined`. -/
theorem fetch_short_circuit_witness :
    Accepted Sample.window (.request Sample.request) .undefined Sample.request ∧
    Sample.passExitPass.installed 0 =
      [⟨"first", ⟨Sample.passOn 1, .undefined⟩⟩] ++
        ⟨"exit", ⟨Sample.earlyExit 2, .undefined⟩⟩ ::
        [⟨"third", ⟨Sample.passOn 3, .undefined⟩⟩] ∧
    ∃ (t : List Call) (y : Val) (nxt : Option Nat),
      (fetch Sample.window 0 (.request Sample.request) .undefined
        ⟨Sample.passExitPass, []⟩).2.trace = [] ++ t ++ [⟨2, y, nxt, .undefined⟩] ∧
      calledFns t = [1] ∧
      (fetch Sample.window 0 (.request Sample.request) .undefined
        ⟨Sample.passExitPass, []⟩).1 = .ok .undefined :=
  ⟨Or.inl rfl, rfl,
    fetch_short_circuit Sample.window 0 (.request Sample.request) .undefined
      ⟨Sample.passExitPass, []⟩ Sample.request
      [⟨"first", ⟨Sample.passOn 1, .undefined⟩⟩] [⟨"third", ⟨Sample.passOn 3, .undefined⟩⟩]
      ⟨"exit", ⟨Sample.earlyExit 2, .undefined⟩⟩ (Or.inl rfl) rfl
      (by
        intro e he
        simp at he
        subst he
        exact Sample.passOn_passesOn 1)
      (Sample.earlyExit_neverCallsNext 2)⟩

/-! ## No middleware -/

/-- C3: with no middleware installed, `fetch` on an accepted input makes exactly one call,
`window.fetch(request, undefined, undefined)` with the normalized request (the request given,
when the input is a request), and completes as that call completes. -/
theorem fetch_without_middleware (window : Window) (this : Nat) (input options : Val)
    (s : St) (r : Request) (hacc : Accepted window input options r)
    (hL : s.heap.installed this = []) :
    (fetch window this input options s).2.trace =
      s.trace ++ [⟨window.fetch.id, .request r, none, .undefined⟩] ∧
    (fetch window this input options s).1 =
      (window.fetch.body (.request r) false .undefined).withoutNext := by
  obtain ⟨n, b, htrace, hchain, -, -, -, hfetch⟩ :=
    fetch_accepted window this input options s r (transportEntry window) [] hacc
      (by rw [hL]; rfl)
  rw [hfetch, Wrapped.call_nil _ n _ _ b hchain]
  simp [htrace, transportEntry, _wrapMiddleware]

/-- With nothing installed, the one call is `window.fetch(request, undefined, undefined)` and
`fetch` returns the promise it returned. -/
theorem fetch_without_middleware_witness :
    Accepted Sample.window (.request Sample.request) .undefined Sample.request ∧
    Sample.emptyHeap.installed 0 = [] ∧
    (fetch Sample.window 0 (.request Sample.request) .undefined
        ⟨Sample.emptyHeap, []⟩).2.trace = [⟨0, .request Sample.request, none, .undefined⟩] ∧
    (fetch Sample.window 0 (.request Sample.request) .undefined
        ⟨Sample.emptyHeap, []⟩).1 = .ok (.obj 100) :=
  ⟨Or.inl rfl, rfl,
    fetch_without_middleware Sample.window 0 (.request Sample.request) .undefined
      ⟨Sample.emptyHeap, []⟩ Sample.request (Or.inl rfl) rfl⟩

/-! ## Inputs that are not accepted -/

/-- C9: on an input that is neither a string nor a request, `fetch` returns a promise
rejected with the `TypeError` and leaves the state as it was: no call is recorded, neither
of an installed function nor of `window.fetch`. -/
theorem fetch_rejects_invalid_input (window : Window) (this : Nat) (input options : Val)
    (s : St) (hstr : ∀ url, input ≠ .str url) (hreq : ∀ r, input ≠ .request r) :
    fetch window this input options s =
      (.ok (.rejected (.typeError "Invalid input argument(s) supplied.")), s) := by
  cases input with
  | str url => exact absurd rfl (hstr url)
  | request r => exact absurd rfl (hreq r)
  | _ => rfl

/-- The input 42 is rejected and nothing is called. -/
theorem fetch_rejects_invalid_input_witness :
    (∀ url, Val.num 42 ≠ .str url) ∧ (∀ r, Val.num 42 ≠ .request r) ∧
    fetch Sample.window 0 (.num 42) .undefined ⟨Sample.twoPass, []⟩ =
      (.ok (.rejected (.typeError "Invalid input argument(s) supplied.")),
        ⟨Sample.twoPass, []⟩) :=
  ⟨fun _ h => Val.noConfusion h, fun _ h => Val.noConfusion h,
    fetch_rejects_invalid_input Sample.window 0 (.num 42) .undefined ⟨Sample.twoPass, []⟩
      (fun _ h => Val.noConfusion h) (fun _ h => Val.noConfusion h)⟩

/-- When the `Request` constructor throws on a string input, `fetch` throws that exception
to its caller: it does not return a rejected promise. -/
theorem fetch_throws_when_constructor_throws (window : Window) (this : Nat) (url : String)
    (options : Val) (s : St) (e : Err) (hthrow : window.newRequest url options = .error e) :
    fetch window this (.str url) options s = (.error e, s) := by
  unfold fetch
  simp [hthrow, Except.map]

/-! ## What `next` is bound to -/

theorem Wrapped.call_frozen_nil (chain n : Nat) (w : Wrapped) (x : Val) (s : Bounded chain n)
    (hc : s.1.heap.readArray chain = []) :
    (Wrapped.call chain n w x s).1 = (frozenCall [] w x s.1.trace).1 ∧
    ((Wrapped.call chain n w x s).2.1.heap.readArray chain = [] ∧
      (Wrapped.call chain n w x s).2.1.trace = (frozenCall [] w x s.1.trace).2) := by
  rw [Wrapped.call_nil chain n w x s hc]
  simp [frozenCall, runAct_none, hc]

/-- With one link left in the chain, that link is called on an empty chain at every
invocation of `next`: any number of invocations agrees with the frozen chain. -/
theorem Wrapped.call_frozen_single (chain n : Nat) (w : Wrapped) (x : Val)
    (s : Bounded chain n) (e : Entry) (hc : s.1.heap.readArray chain = [e]) :
    (Wrapped.call chain n w x s).1 = (frozenCall [e] w x s.1.trace).1 ∧
    (Wrapped.call chain n w x s).2.1.trace = (frozenCall [e] w x s.1.trace).2 := by
  obtain ⟨m, rfl⟩ := bound_pos_of_cons s hc
  obtain ⟨s1, hheap, htrace, hout, hst⟩ := Wrapped.call_cons chain m w x s e [] hc
  have hlt : chain < s.1.heap.arrays.length :=
    Heap.lt_of_readArray_ne_nil (by rw [hc]; simp)
  have hsim := runAct_simulation
    (fun (a : Bounded chain m) (t : List Call) => a.1.heap.readArray chain = [] ∧ a.1.trace = t)
    (Wrapped.call chain m e.fn) (frozenCall [] e.fn)
    (fun y a t hR => by
      obtain ⟨h1, h2, h3⟩ := Wrapped.call_frozen_nil chain m e.fn y a hR.1
      rw [hR.2] at h1 h3
      exact ⟨h1, h2, h3⟩)
    (w.fn.body x true w.options) s1
    (s.1.trace ++ [⟨w.fn.id, x, some e.fn.fn.id, w.options⟩])
    ⟨by rw [hheap, Heap.readArray_writeArray_same _ _ _ hlt], htrace⟩
  rw [hout, hst]
  simp only [frozenCall]
  exact ⟨hsim.1, hsim.2.2⟩

theorem Wrapped.call_frozen (chain : Nat) :
    ∀ (l : List Entry) (n : Nat) (w : Wrapped) (x : Val) (s : Bounded chain n),
      s.1.heap.readArray chain = l → SinglePass w l →
      (Wrapped.call chain n w x s).1 = (frozenCall l w x s.1.trace).1 ∧
      (Wrapped.call chain n w x s).2.1.trace = (frozenCall l w x s.1.trace).2 := by
  intro l
  induction l with
  | nil =>
    intro n w x s hc _
    obtain ⟨h1, -, h3⟩ := Wrapped.call_frozen_nil chain n w x s hc
    exact ⟨h1, h3⟩
  | cons e rest ih =>
    intro n w x s hc hsp
    cases rest with
    | nil => exact Wrapped.call_frozen_single chain n w x s e hc
    | cons e2 rest2 =>
      obtain ⟨m, rfl⟩ := bound_pos_of_cons s hc
      obtain ⟨s1, hheap, htrace, hout, hst⟩ :=
        Wrapped.call_cons chain m w x s e (e2 :: rest2) hc
      have hlt : chain < s.1.heap.arrays.length :=
        Heap.lt_of_readArray_ne_nil (by rw [hc]; simp)
      have hchain : s1.1.heap.readArray chain = e2 :: rest2 := by
        rw [hheap, Heap.readArray_writeArray_same _ _ _ hlt]
      simp only [SinglePass] at hsp
      obtain ⟨hw, hrest⟩ := hsp
      have hone := hw x true w.options
      rw [hout, hst]
      simp only [frozenCall]
      cases hbody : w.fn.body x true w.options with
      | ret v => exact ⟨rfl, htrace⟩
      | throw err => exact ⟨rfl, htrace⟩
      | callNext y k =>
        rw [hbody] at hone
        simp only [Act.AtMostOnce] at hone
        obtain ⟨h1, h2⟩ := ih m e.fn y s1 hchain hrest
        rw [htrace] at h1 h2
        simp only [runAct]
        rw [runAct_noCall _ _ _ (hone _), runAct_noCall _ _ _ (hone _), h1]
        exact ⟨rfl, h2⟩

theorem singlePass_of_dropLast (t : Entry) :
    ∀ (l : List Entry) (first : Entry) (rest : List Entry), l ++ [t] = first :: rest →
      (∀ e ∈ l.dropLast, e.fn.fn.CallsNextAtMostOnce) → SinglePass first.fn rest := by
  intro l
  induction l with
  | nil =>
    intro first rest h _
    simp at h
    obtain ⟨-, rfl⟩ := h
    simp [SinglePass]
  | cons a l ih =>
    intro first rest h hall
    simp at h
    obtain ⟨rfl, rfl⟩ := h
    cases l with
    | nil => simp [SinglePass]
    | cons b l2 =>
      have hrest : ∃ c r, l2 ++ [t] = c :: r := by
        cases l2 with
        | nil => exact ⟨_, _, rfl⟩
        | cons c r => exact ⟨c, r ++ [t], rfl⟩
      obtain ⟨c, r, hcr⟩ := hrest
      have hsp := ih b (l2 ++ [t]) rfl (fun e he => hall e (by
        simp only [List.dropLast_cons₂]
        exact List.mem_cons_of_mem _ he))
      simp only [List.cons_append, hcr, SinglePass] at hsp ⊢
      exact ⟨hall a (by simp [List.dropLast]), hsp⟩

/-- C4, as the code has it: `next` is bound to the next link when a link runs, and the links
after that one are taken from the shared chain array when `next` is invoked.  When every
installed function other than the last installed one calls its `next` at most once, `fetch`
on an accepted input behaves as the chain with frozen remainders: each invocation of a `next`
calls the function at the following position with a continuation over the positions after it
and the transport (the last installed function may invoke its `next` any number of times). -/
theorem next_frozen_on_single_pass (window : Window) (this : Nat) (input options : Val)
    (s : St) (r : Request) (hacc : Accepted window input options r)
    (hsingle : ∀ e ∈ (s.heap.installed this).dropLast, e.fn.fn.CallsNextAtMostOnce) :
    NextIsFrozen window this input options s r := by
  obtain ⟨first, rest, hfr⟩ :
      ∃ first rest, s.heap.installed this ++ [transportEntry window] = first :: rest := by
    cases s.heap.installed this with
    | nil => exact ⟨_, _, rfl⟩
    | cons a l => exact ⟨a, l ++ [transportEntry window], rfl⟩
  obtain ⟨n, b, htrace, hchain, -, -, -, hfetch⟩ :=
    fetch_accepted window this input options s r first rest hacc hfr
  obtain ⟨h1, h2⟩ := Wrapped.call_frozen _ rest n first.fn (.request r) b hchain
    (singlePass_of_dropLast _ _ first rest hfr hsingle)
  unfold NextIsFrozen frozenFetch
  rw [hfetch, hfr]
  simp only []
  rw [h1, h2, htrace]
  exact ⟨rfl, rfl⟩

/-- With `passOn 1` and `retry 2` installed, the chain behaves as the frozen one although the
last function calls its `next` twice. -/
theorem next_frozen_on_single_pass_witness :
    Accepted Sample.window (.request Sample.request) .undefined Sample.request ∧
    (∀ e ∈ (Sample.passRetry.installed 0).dropLast, e.fn.fn.CallsNextAtMostOnce) ∧
    NextIsFrozen Sample.window 0 (.request Sample.request) .undefined
      ⟨Sample.passRetry, []⟩ Sample.request := by
  have hyp : ∀ e ∈ (Sample.passRetry.installed 0).dropLast,
      e.fn.fn.CallsNextAtMostOnce := by
    intro e he
    simp [Sample.passRetry, Heap.installed, Heap.readArray, Heap.field] at he
    subst he
    exact Sample.passOn_callsNextAtMostOnce 1
  exact ⟨Or.inl rfl, hyp,
    next_frozen_on_single_pass Sample.window 0 (.request Sample.request) .undefined
      ⟨Sample.passRetry, []⟩ Sample.request (Or.inl rfl) hyp⟩

/-- C4 as stated fails.  With `retry 1` and `passOn 2` installed, the second invocation of the
`next` given to `retry` calls `passOn 2` again, but the chain is empty by then: that call gets
an `undefined` `next`, `window.fetch` is not called a second time, and `fetch` throws.  A
frozen remainder would run `passOn 2` and `window.fetch` again. -/
theorem next_not_frozen_on_retry :
    Accepted Sample.window (.request Sample.request) .undefined Sample.request ∧
    ¬ NextIsFrozen Sample.window 0 (.request Sample.request) .undefined
      ⟨Sample.retryPass, []⟩ Sample.request ∧
    calledFns (fetch Sample.window 0 (.request Sample.request) .undefined
      ⟨Sample.retryPass, []⟩).2.trace = [1, 2, 0, 2] ∧
    (fetch Sample.window 0 (.request Sample.request) .undefined
      ⟨Sample.retryPass, []⟩).2.trace.map Call.next = [some 2, some 0, none, none] ∧
    (fetch Sample.window 0 (.request Sample.request) .undefined
      ⟨Sample.retryPass, []⟩).1 = .error notAFunction ∧
    calledFns (frozenFetch Sample.window (Sample.retryPass.installed 0) Sample.request []).2 =
      [1, 2, 0, 2, 0] ∧
    (frozenFetch Sample.window (Sample.retryPass.installed 0) Sample.request []).2.map
      Call.next = [some 2, some 0, none, some 0, none] :=
  ⟨Or.inl rfl, fun h => absurd h.2 (by decide), by decide, by decide, rfl, by decide,
    by decide⟩

/-! ## A string the `Request` constructor rejects -/

/-- C10 fails on the code: for the string `http://`, which the `Request` constructor of the
sample platform rejects, `fetch` throws the constructor's exception to its caller, with no
call made, whereas for the number 42 it returns a rejected promise. -/
theorem fetch_throws_on_rejected_url :
    (fetch Sample.window 0 (.str "http://") .undefined ⟨Sample.twoPass, []⟩).1 =
      .error (.typeError "Failed to construct Request: Invalid URL") ∧
    (fetch Sample.window 0 (.str "http://") .undefined ⟨Sample.twoPass, []⟩).2.trace = [] ∧
    (fetch Sample.window 0 (.num 42) .undefined ⟨Sample.twoPass, []⟩).1 =
      .ok (.rejected (.typeError "Invalid input argument(s) supplied.")) :=
  ⟨rfl, rfl, rfl⟩

/-! ## `fetch` looks at the installed entries only -/

theorem Wrapped.call_same (c1 c2 : Nat) :
    ∀ (n1 n2 : Nat) (w : Wrapped) (x : Val) (s1 : Bounded c1 n1) (s2 : Bounded c2 n2),
      s1.1.heap.readArray c1 = s2.1.heap.readArray c2 → s1.1.trace = s2.1.trace →
      (Wrapped.call c1 n1 w x s1).1 = (Wrapped.call c2 n2 w x s2).1 ∧
      ((Wrapped.call c1 n1 w x s1).2.1.heap.readArray c1 =
          (Wrapped.call c2 n2 w x s2).2.1.heap.readArray c2 ∧
        (Wrapped.call c1 n1 w x s1).2.1.trace = (Wrapped.call c2 n2 w x s2).2.1.trace) := by
  intro n1
  induction n1 with
  | zero =>
    intro n2 w x s1 s2 hchain htrace
    have h1 : s1.1.heap.readArray c1 = [] := List.eq_nil_of_length_eq_zero (Nat.le_zero.mp s1.2)
    have h2 : s2.1.heap.readArray c2 = [] := by rw [← hchain]; exact h1
    rw [Wrapped.call_nil c1 0 w x s1 h1, Wrapped.call_nil c2 n2 w x s2 h2]
    simp [h1, h2, htrace]
  | succ m ih =>
    intro n2 w x s1 s2 hchain htrace
    cases hc : s1.1.heap.readArray c1 with
    | nil =>
      have h2 : s2.1.heap.readArray c2 = [] := by rw [← hchain]; exact hc
      rw [Wrapped.call_nil c1 (m + 1) w x s1 hc, Wrapped.call_nil c2 n2 w x s2 h2]
      simp [hc, h2, htrace]
    | cons e rest =>
      have hc2 : s2.1.heap.readArray c2 = e :: rest := by rw [← hchain]; exact hc
      obtain ⟨m2, rfl⟩ := bound_pos_of_cons s2 hc2
      obtain ⟨a1, hheap1, htrace1, hout1, hst1⟩ := Wrapped.call_cons c1 m w x s1 e rest hc
      obtain ⟨a2, hheap2, htrace2, hout2, hst2⟩ := Wrapped.call_cons c2 m2 w x s2 e rest hc2
      have hlt1 : c1 < s1.1.heap.arrays.length :=
        Heap.lt_of_readArray_ne_nil (by rw [hc]; simp)
      have hlt2 : c2 < s2.1.heap.arrays.length :=
        Heap.lt_of_readArray_ne_nil (by rw [hc2]; simp)
      have hsim := runAct_simulation
        (fun (a : Bounded c1 m) (b : Bounded c2 m2) =>
          a.1.heap.readArray c1 = b.1.heap.readArray c2 ∧ a.1.trace = b.1.trace)
        (Wrapped.call c1 m e.fn) (Wrapped.call c2 m2 e.fn)
        (fun y a b hR => ih m2 e.fn y a b hR.1 hR.2)
        (w.fn.body x true w.options) a1 a2
        ⟨by rw [hheap1, hheap2, Heap.readArray_writeArray_same _ _ _ hlt1,
              Heap.readArray_writeArray_same _ _ _ hlt2],
          by rw [htrace1, htrace2, htrace]⟩
      rw [hout1, hout2, hst1, hst2]
      exact hsim

/-- The completion of `fetch` and the calls it makes depend on the heap through the installed
entries only. -/
theorem fetch_same_installed (window : Window) (this1 this2 : Nat) (input options : Val)
    (h1 h2 : Heap) (t : List Call) (hL : h1.installed this1 = h2.installed this2) :
    (fetch window this1 input options ⟨h1, t⟩).1 = (fetch window this2 input options ⟨h2, t⟩).1 ∧
    (fetch window this1 input options ⟨h1, t⟩).2.trace =
      (fetch window this2 input options ⟨h2, t⟩).2.trace := by
  have main : ∀ r, Accepted window input options r →
      (fetch window this1 input options ⟨h1, t⟩).1 =
        (fetch window this2 input options ⟨h2, t⟩).1 ∧
      (fetch window this1 input options ⟨h1, t⟩).2.trace =
        (fetch window this2 input options ⟨h2, t⟩).2.trace := by
    intro r hacc
    obtain ⟨first, rest, hfr⟩ :
        ∃ first rest, h1.installed this1 ++ [transportEntry window] = first :: rest := by
      cases h1.installed this1 with
      | nil => exact ⟨_, _, rfl⟩
      | cons a l => exact ⟨a, l ++ [transportEntry window], rfl⟩
    obtain ⟨n1, b1, htrace1, hchain1, -, -, -, hfetch1⟩ :=
      fetch_accepted window this1 input options ⟨h1, t⟩ r first rest hacc hfr
    obtain ⟨n2, b2, htrace2, hchain2, -, -, -, hfetch2⟩ :=
      fetch_accepted window this2 input options ⟨h2, t⟩ r first rest hacc (by rw [← hL]; exact hfr)
    rw [hfetch1, hfetch2]
    obtain ⟨k1, -, k3⟩ := Wrapped.call_same _ _ n1 n2 first.fn (.request r) b1 b2
      (by rw [hchain1, hchain2]) (by rw [htrace1, htrace2])
    exact ⟨k1, k3⟩
  cases input with
  | str url =>
    cases hreq : window.newRequest url options with
    | error e =>
      unfold fetch
      simp [hreq, Except.map]
    | ok r => exact main r (Or.inr ⟨url, rfl, hreq⟩)
  | request r => exact main r (Or.inl rfl)
  | _ => exact ⟨rfl, rfl⟩

/-! ## Registration -/

theorem verify_record (name : String) (f : MiddlewareFn) (o : Val) (hname : name ≠ "") :
    _verifyMiddleware (.record (.data (.str name)) (.func f) o) = .ok ⟨name, f, o⟩ := by
  simp [_verifyMiddleware, Arg.truthy, Arg.typeof, Arg.name, Arg.fn, Arg.options, hname]

/-- The heap after a successful `addTemp`: two arrays and one object are allocated. -/
theorem addTemp_record (this : Nat) (name : String) (f : MiddlewareFn) (o : Val)
    (options : AddTempOptions) (p : Val) (h : Heap) (hv : h.Valid this) (hname : name ≠ "")
    (hp : options.prepend = .ok p) :
    addTemp this (.record (.data (.str name)) (.func f) o) options h =
      (.ok h.objects.length,
        ⟨h.arrays ++ [[], if p.truthy then ⟨name, ⟨f, o⟩⟩ :: h.installed this
            else h.installed this ++ [⟨name, ⟨f, o⟩⟩]],
          h.objects ++ [⟨h.arrays.length + 1⟩]⟩) := by
  obtain ⟨hthis, hfield⟩ := hv
  have hfield3 : h.objects[this]._installedMiddlewares < h.arrays.length := by
    simpa [Heap.field, List.getD_eq_getElem?_getD, hthis] using hfield
  unfold addTemp
  rw [hp, verify_record name f o hname]
  dsimp only
  by_cases htr : p.truthy = true
  · simp [D2LFetch.new, Heap.newArray, Heap.newObject, Heap.slice, Heap.setField, Heap.field,
      Heap.readArray, Heap.unshift, Heap.push, Heap.writeArray, Heap.installed, _wrapMiddleware,
      List.getD_eq_getElem?_getD, List.getElem?_append_left, List.getElem_append_right,
      hthis, hfield3, htr]
  · simp [D2LFetch.new, Heap.newArray, Heap.newObject, Heap.slice, Heap.setField, Heap.field,
      Heap.readArray, Heap.unshift, Heap.push, Heap.writeArray, Heap.installed, _wrapMiddleware,
      List.getD_eq_getElem?_getD, List.getElem?_append_left, List.getElem_append_right,
      hthis, hfield3, htr]

/-- The heap after a successful `removeTemp`: two arrays and one object are allocated. -/
theorem removeTemp_string (this : Nat) (name : String) (h : Heap) (hv : h.Valid this)
    (hname : name ≠ "") :
    removeTemp this (.data (.str name)) h =
      (.ok h.objects.length,
        ⟨h.arrays ++ [[], (h.installed this).filter (fun e => !(name == e.name))],
          h.objects ++ [⟨h.arrays.length + 1⟩]⟩) := by
  obtain ⟨hthis, hfield⟩ := hv
  have hfield3 : h.objects[this]._installedMiddlewares < h.arrays.length := by
    simpa [Heap.field, List.getD_eq_getElem?_getD, hthis] using hfield
  simp [removeTemp, Field.truthy, Field.typeof, Val.truthy, Val.typeof, hname,
    Field.strictEqString, D2LFetch.new, Heap.newArray, Heap.newObject, Heap.filter,
    Heap.setField, Heap.field, Heap.readArray, Heap.installed,
    List.getD_eq_getElem?_getD, List.getElem?_append_left, hthis, hfield3]

/-- An object and an array of a heap are read alike after arrays and objects are allocated. -/
theorem Heap.installed_append (h : Heap) (this : Nat) (as : List (List Entry))
    (os : List D2LFetch) (hv : h.Valid this) :
    (⟨h.arrays ++ as, h.objects ++ os⟩ : Heap).field this = h.field this ∧
    (⟨h.arrays ++ as, h.objects ++ os⟩ : Heap).installed this = h.installed this := by
  obtain ⟨hthis, hfield⟩ := hv
  have hfield3 : h.objects[this]._installedMiddlewares < h.arrays.length := by
    simpa [Heap.field, List.getD_eq_getElem?_getD, hthis] using hfield
  simp [Heap.field, Heap.readArray, Heap.installed, List.getD_eq_getElem?_getD,
    List.getElem?_append_left, hthis, hfield3]

/-- The object and the array allocated last. -/
theorem Heap.installed_last (h : Heap) (l : List Entry) :
    (⟨h.arrays ++ [[], l], h.objects ++ [⟨h.arrays.length + 1⟩]⟩ : Heap).field
        h.objects.length = h.arrays.length + 1 ∧
    (⟨h.arrays ++ [[], l], h.objects ++ [⟨h.arrays.length + 1⟩]⟩ : Heap).installed
        h.objects.length = l := by
  simp [Heap.field, Heap.readArray, Heap.installed, List.getD_eq_getElem?_getD,
    List.getElem_append_right]

/-- C5: `addTemp` with a well-formed middleware and `removeTemp` with a non-empty string leave
the receiver as it was: its field holds the same array, the array holds the same entries in
the same order, every `fetch` on the receiver completes alike and makes the same calls before
and after; the object returned is another object, with an array of its own. -/
theorem derive_keeps_receiver (window : Window) (h : Heap) (this : Nat) (name : String)
    (f : MiddlewareFn) (o : Val) (options : AddTempOptions) (removed : String)
    (hv : h.Valid this) (hname : name ≠ "") (hoptions : options ≠ .null)
    (hremoved : removed ≠ "") :
    (∃ self, (addTemp this (.record (.data (.str name)) (.func f) o) options h).1 = .ok self ∧
      OtherObject (addTemp this (.record (.data (.str name)) (.func f) o) options h).2
        this self ∧
      SameReceiver window h
        (addTemp this (.record (.data (.str name)) (.func f) o) options h).2 this) ∧
    (∃ self, (removeTemp this (.data (.str removed)) h).1 = .ok self ∧
      OtherObject (removeTemp this (.data (.str removed)) h).2 this self ∧
      SameReceiver window h (removeTemp this (.data (.str removed)) h).2 this) := by
  have hp : ∃ p, options.prepend = .ok p := by
    cases options with
    | undefined => exact ⟨_, rfl⟩
    | null => exact absurd rfl hoptions
    | value p => exact ⟨_, rfl⟩
  obtain ⟨p, hp⟩ := hp
  have key : ∀ l : List Entry,
      OtherObject ⟨h.arrays ++ [[], l], h.objects ++ [⟨h.arrays.length + 1⟩]⟩ this
        h.objects.length ∧
      SameReceiver window h ⟨h.arrays ++ [[], l], h.objects ++ [⟨h.arrays.length + 1⟩]⟩
        this := by
    intro l
    obtain ⟨k1, k2⟩ := Heap.installed_append h this [[], l] [⟨h.arrays.length + 1⟩] hv
    obtain ⟨k3, -⟩ := Heap.installed_last h l
    refine ⟨⟨?_, ?_⟩, k1, k2, ?_⟩
    · exact Nat.ne_of_gt hv.1
    · rw [k3, k1]
      exact Nat.ne_of_gt (Nat.lt_succ_of_lt hv.2)
    · intro input fopts t
      exact fetch_same_installed window this this input fopts _ _ t k2
  constructor
  · rw [addTemp_record this name f o options p h hv hname hp]
    exact ⟨_, rfl, key _⟩
  · rw [removeTemp_string this removed h hv hremoved]
    exact ⟨_, rfl, key _⟩

/-- The receiver with `passOn 1` and `passOn 2` installed is kept by an `addTemp` and by a
`removeTemp`. -/
theorem derive_keeps_receiver_witness :
    Sample.twoPass.Valid 0 ∧ "third" ≠ "" ∧ AddTempOptions.value (.bool true) ≠ .null ∧
    "first" ≠ "" ∧
    (∃ self, (addTemp 0 (.record (.data (.str "third")) (.func (Sample.passOn 3)) .undefined)
        (.value (.bool true)) Sample.twoPass).1 = .ok self ∧
      OtherObject (addTemp 0 (.record (.data (.str "third")) (.func (Sample.passOn 3))
        .undefined) (.value (.bool true)) Sample.twoPass).2 0 self ∧
      SameReceiver Sample.window Sample.twoPass
        (addTemp 0 (.record (.data (.str "third")) (.func (Sample.passOn 3)) .undefined)
          (.value (.bool true)) Sample.twoPass).2 0) ∧
    (∃ self, (removeTemp 0 (.data (.str "first")) Sample.twoPass).1 = .ok self ∧
      OtherObject (removeTemp 0 (.data (.str "first")) Sample.twoPass).2 0 self ∧
      SameReceiver Sample.window Sample.twoPass
        (removeTemp 0 (.data (.str "first")) Sample.twoPass).2 0) :=
  ⟨by decide, by decide, fun h => AddTempOptions.noConfusion h, by decide,
    derive_keeps_receiver Sample.window Sample.twoPass 0 "third" (Sample.passOn 3) .undefined
      (.value (.bool true)) "first" (by decide) (by decide)
      (fun h => AddTempOptions.noConfusion h) (by decide)⟩

/-- C6: on a receiver with entries L, `addTemp(mw, { prepend: true })` returns an object whose
list is the entry of `mw` followed by L; `addTemp(mw)` and `addTemp(mw, { prepend: false })`
return an object whose list is L followed by the entry of `mw`; the new list has one entry
more than L. -/
theorem addTemp_places_entry (h : Heap) (this : Nat) (name : String) (f : MiddlewareFn)
    (o : Val) (hv : h.Valid this) (hname : name ≠ "") :
    (∃ self, (addTemp this (.record (.data (.str name)) (.func f) o)
        (.value (.bool true)) h).1 = .ok self ∧
      (addTemp this (.record (.data (.str name)) (.func f) o)
        (.value (.bool true)) h).2.installed self =
          ⟨name, _wrapMiddleware f o⟩ :: h.installed this ∧
      ((addTemp this (.record (.data (.str name)) (.func f) o)
        (.value (.bool true)) h).2.installed self).length = (h.installed this).length + 1) ∧
    (∃ self, (addTemp this (.record (.data (.str name)) (.func f) o) .undefined h).1 = .ok self ∧
      (addTemp this (.record (.data (.str name)) (.func f) o) .undefined h).2.installed self =
          h.installed this ++ [⟨name, _wrapMiddleware f o⟩] ∧
      ((addTemp this (.record (.data (.str name)) (.func f) o)
        .undefined h).2.installed self).length = (h.installed this).length + 1) ∧
    (∃ self, (addTemp this (.record (.data (.str name)) (.func f) o)
        (.value (.bool false)) h).1 = .ok self ∧
      (addTemp this (.record (.data (.str name)) (.func f) o)
        (.value (.bool false)) h).2.installed self =
          h.installed this ++ [⟨name, _wrapMiddleware f o⟩] ∧
      ((addTemp this (.record (.data (.str name)) (.func f) o)
        (.value (.bool false)) h).2.installed self).length = (h.installed this).length + 1) := by
  refine ⟨?_, ?_, ?_⟩
  · rw [addTemp_record this name f o (.value (.bool true)) (.bool true) h hv hname rfl]
    refine ⟨_, rfl, ?_⟩
    simp only []
    rw [(Heap.installed_last h _).2]
    simp [Val.truthy, _wrapMiddleware]
  · rw [addTemp_record this name f o .undefined (.bool false) h hv hname rfl]
    refine ⟨_, rfl, ?_⟩
    simp only []
    rw [(Heap.installed_last h _).2]
    simp [Val.truthy, _wrapMiddleware]
  · rw [addTemp_record this name f o (.value (.bool false)) (.bool false) h hv hname rfl]
    refine ⟨_, rfl, ?_⟩
    simp only []
    rw [(Heap.installed_last h _).2]
    simp [Val.truthy, _wrapMiddleware]

/-- The entry `third` is placed before or after the two entries of the receiver. -/
theorem addTemp_places_entry_witness :
    Sample.twoPass.Valid 0 ∧ "third" ≠ "" ∧
    (∃ self, (addTemp 0 Sample.third (.value (.bool true)) Sample.twoPass).1 = .ok self ∧
      (addTemp 0 Sample.third (.value (.bool true)) Sample.twoPass).2.installed self =
          ⟨"third", _wrapMiddleware (Sample.passOn 3) .undefined⟩ ::
            Sample.twoPass.installed 0 ∧
      ((addTemp 0 Sample.third (.value (.bool true)) Sample.twoPass).2.installed self).length =
        (Sample.twoPass.installed 0).length + 1) ∧
    (∃ self, (addTemp 0 Sample.third .undefined Sample.twoPass).1 = .ok self ∧
      (addTemp 0 Sample.third .undefined Sample.twoPass).2.installed self =
          Sample.twoPass.installed 0 ++
            [⟨"third", _wrapMiddleware (Sample.passOn 3) .undefined⟩] ∧
      ((addTemp 0 Sample.third .undefined Sample.twoPass).2.installed self).length =
        (Sample.twoPass.installed 0).length + 1) ∧
    (∃ self, (addTemp 0 Sample.third (.value (.bool false)) Sample.twoPass).1 = .ok self ∧
      (addTemp 0 Sample.third (.value (.bool false)) Sample.twoPass).2.installed self =
          Sample.twoPass.installed 0 ++
            [⟨"third", _wrapMiddleware (Sample.passOn 3) .undefined⟩] ∧
      ((addTemp 0 Sample.third (.value (.bool false)) Sample.twoPass).2.installed self).length =
        (Sample.twoPass.installed 0).length + 1) :=
  ⟨by decide, by decide,
    addTemp_places_entry Sample.twoPass 0 "third" (Sample.passOn 3) .undefined
      (by decide) (by decide)⟩

/-- C7: on a receiver with entries L, `removeTemp(name)` with a non-empty string returns an
object whose list is L without the entries named `name`: an entry is in the new list exactly
when it is in L under another name, the entries kept are in the order they have in L, and
when no entry of L has the name the new list is L. -/
theorem removeTemp_removes_named (h : Heap) (this : Nat) (name : String)
    (hv : h.Valid this) (hname : name ≠ "") :
    ∃ self, (removeTemp this (.data (.str name)) h).1 = .ok self ∧
      (removeTemp this (.data (.str name)) h).2.installed self =
        (h.installed this).filter (fun e => e.name != name) ∧
      (∀ e, e ∈ (removeTemp this (.data (.str name)) h).2.installed self ↔
        e ∈ h.installed this ∧ e.name ≠ name) ∧
      ((removeTemp this (.data (.str name)) h).2.installed self).Sublist (h.installed this) ∧
      ((∀ e ∈ h.installed this, e.name ≠ name) →
        (removeTemp this (.data (.str name)) h).2.installed self = h.installed this) := by
  rw [removeTemp_string this name h hv hname]
  refine ⟨_, rfl, ?_⟩
  simp only []
  rw [(Heap.installed_last h _).2]
  have hfilter : (h.installed this).filter (fun e => !(name == e.name)) =
      (h.installed this).filter (fun e => e.name != name) := by
    apply List.filter_congr
    intro e _
    show (!(name == e.name)) = !(e.name == name)
    rw [BEq.comm]
  rw [hfilter]
  refine ⟨rfl, ?_, List.filter_sublist _, ?_⟩
  · intro e
    simp [List.mem_filter]
  · intro hall
    apply List.filter_eq_self.mpr
    intro e he
    simpa using hall e he

/-- Removing `first` from the receiver with entries `first` and `second`. -/
theorem removeTemp_removes_named_witness :
    Sample.twoPass.Valid 0 ∧ "first" ≠ "" ∧
    ∃ self, (removeTemp 0 (.data (.str "first")) Sample.twoPass).1 = .ok self ∧
      (removeTemp 0 (.data (.str "first")) Sample.twoPass).2.installed self =
        (Sample.twoPass.installed 0).filter (fun e => e.name != "first") ∧
      (∀ e, e ∈ (removeTemp 0 (.data (.str "first")) Sample.twoPass).2.installed self ↔
        e ∈ Sample.twoPass.installed 0 ∧ e.name ≠ "first") ∧
      ((removeTemp 0 (.data (.str "first")) Sample.twoPass).2.installed self).Sublist
        (Sample.twoPass.installed 0) ∧
      ((∀ e ∈ Sample.twoPass.installed 0, e.name ≠ "first") →
        (removeTemp 0 (.data (.str "first")) Sample.twoPass).2.installed self =
          Sample.twoPass.installed 0) :=
  ⟨by decide, by decide,
    removeTemp_removes_named Sample.twoPass 0 "first" (by decide) (by decide)⟩

/-! ## The options a function is called with -/

/-- Every call a wrapper records is a call of the function it wraps with the options it wraps:
when the wrapper `w` and the wrappers of the chain are all in `S`, the chain stays in `S` and
every call recorded is a call made by a wrapper of `S`. -/
theorem Wrapped.call_calls (c : Nat) (S : Wrapped → Prop) (Q : Call → Prop)
    (hQ : ∀ w, S w → ∀ x nxt, Q ⟨w.fn.id, x, nxt, w.options⟩) :
    ∀ (n : Nat) (w : Wrapped) (x : Val) (s : Bounded c n), S w →
      (∀ e ∈ s.1.heap.readArray c, S e.fn) →
      (∀ e ∈ (Wrapped.call c n w x s).2.1.heap.readArray c, S e.fn) ∧
      ∃ new, (Wrapped.call c n w x s).2.1.trace = s.1.trace ++ new ∧ ∀ k ∈ new, Q k := by
  have hnil : ∀ (n : Nat) (w : Wrapped) (x : Val) (s : Bounded c n), S w →
      s.1.heap.readArray c = [] →
      (∀ e ∈ (Wrapped.call c n w x s).2.1.heap.readArray c, S e.fn) ∧
      ∃ new, (Wrapped.call c n w x s).2.1.trace = s.1.trace ++ new ∧ ∀ k ∈ new, Q k := by
    intro n w x s hw hc
    rw [Wrapped.call_nil c n w x s hc]
    refine ⟨?_, [⟨w.fn.id, x, none, w.options⟩], rfl, ?_⟩
    · intro e he
      simp only [] at he
      rw [hc] at he
      exact absurd he (List.not_mem_nil _)
    · intro k hk
      rw [List.mem_singleton] at hk
      rw [hk]
      exact hQ w hw _ _
  intro n
  induction n with
  | zero =>
    intro w x s hw _
    exact hnil 0 w x s hw (List.eq_nil_of_length_eq_zero (Nat.le_zero.mp s.2))
  | succ m ih =>
    intro w x s hw hchain
    cases hc : s.1.heap.readArray c with
    | nil => exact hnil (m + 1) w x s hw hc
    | cons e rest =>
      obtain ⟨s1, hheap, htrace, -, hst⟩ := Wrapped.call_cons c m w x s e rest hc
      have hlt : c < s.1.heap.arrays.length :=
        Heap.lt_of_readArray_ne_nil (by rw [hc]; simp)
      rw [hc] at hchain
      have hinv := runAct_invariant
        (fun (a : Bounded c m) => (∀ e ∈ a.1.heap.readArray c, S e.fn) ∧
          ∃ new, a.1.trace = s.1.trace ++ new ∧ ∀ k ∈ new, Q k)
        (Wrapped.call c m e.fn)
        (fun y a ha => by
          obtain ⟨h1, new1, h2, h3⟩ := ha
          obtain ⟨k1, new2, k2, k3⟩ := ih e.fn y a (hchain e (List.mem_cons_self _ _)) h1
          refine ⟨k1, new1 ++ new2, ?_, ?_⟩
          · rw [k2, h2, List.append_assoc]
          · intro k hk
            rcases List.mem_append.mp hk with hk | hk
            · exact h3 k hk
            · exact k3 k hk)
        (w.fn.body x true w.options) s1
        ⟨by
          rw [hheap, Heap.readArray_writeArray_same _ _ _ hlt]
          exact fun e2 he2 => hchain e2 (List.mem_cons_of_mem _ he2),
         [⟨w.fn.id, x, some e.fn.fn.id, w.options⟩], htrace, by
          intro k hk
          rw [List.mem_singleton] at hk
          rw [hk]
          exact hQ w hw _ _⟩
      rw [hst]
      exact hinv

/-- Either the input of `fetch` is accepted or `fetch` leaves the state as it was. -/
theorem fetch_accepted_or_unchanged (window : Window) (this : Nat) (input options : Val)
    (s : St) :
    (∃ r, Accepted window input options r) ∨ (fetch window this input options s).2 = s := by
  cases input with
  | str url =>
    cases hreq : window.newRequest url options with
    | error e =>
      right
      unfold fetch
      simp [hreq, Except.map]
    | ok r => exact Or.inl ⟨r, Or.inr ⟨url, rfl, hreq⟩⟩
  | request r => exact Or.inl ⟨r, Or.inl rfl⟩
  | _ => exact Or.inr rfl

/-- Every call `fetch` makes is a call of the function of an installed entry, or of
`window.fetch`, with the options of that entry. -/
theorem fetch_calls_of_entries (window : Window) (this : Nat) (input options : Val) (s : St) :
    ∃ new, (fetch window this input options s).2.trace = s.trace ++ new ∧
      ∀ k ∈ new, ∃ e ∈ s.heap.installed this ++ [transportEntry window],
        k.fn = e.fn.fn.id ∧ k.options = e.fn.options := by
  rcases fetch_accepted_or_unchanged window this input options s with ⟨r, hacc⟩ | hsame
  · obtain ⟨first, rest, hfr⟩ :
        ∃ first rest, s.heap.installed this ++ [transportEntry window] = first :: rest := by
      cases s.heap.installed this with
      | nil => exact ⟨_, _, rfl⟩
      | cons a l => exact ⟨a, l ++ [transportEntry window], rfl⟩
    obtain ⟨n, b, htrace, hchain, -, -, -, hfetch⟩ :=
      fetch_accepted window this input options s r first rest hacc hfr
    obtain ⟨-, new, h1, h2⟩ := Wrapped.call_calls s.heap.arrays.length
      (fun w => ∃ e ∈ first :: rest, e.fn = w)
      (fun k => ∃ e ∈ first :: rest, k.fn = e.fn.fn.id ∧ k.options = e.fn.options)
      (fun w hw x nxt => by
        obtain ⟨e, he, rfl⟩ := hw
        exact ⟨e, he, rfl, rfl⟩)
      n first.fn (.request r) b ⟨first, List.mem_cons_self _ _, rfl⟩
      (fun e he => ⟨e, by rw [hchain] at he; exact List.mem_cons_of_mem _ he, rfl⟩)
    refine ⟨new, ?_, ?_⟩
    · rw [hfetch]
      simp only []
      rw [h1, htrace]
    · rw [hfr]
      exact h2
  · exact ⟨[], by rw [hsame]; simp, fun k hk => absurd hk (List.not_mem_nil _)⟩

theorem use_record (this : Nat) (name : String) (f : MiddlewareFn) (o : Val) (h : Heap)
    (hv : h.Valid this) (hname : name ≠ "") :
    (use this (.record (.data (.str name)) (.func f) o) h).1 = .ok () ∧
    (use this (.record (.data (.str name)) (.func f) o) h).2.installed this =
      h.installed this ++ [⟨name, ⟨f, o⟩⟩] := by
  unfold use
  rw [verify_record name f o hname]
  refine ⟨rfl, ?_⟩
  simp only [Heap.installed, Heap.push, Heap.field_writeArray]
  rw [Heap.readArray_writeArray_same _ _ _ hv.2]
  rfl

/-- The calls of a `fetch` over entries that are `e0` and the entries of `l`: each is a call of
the function of `e0` with the options of `e0`, or a call of another link with its options. -/
theorem calls_of_added (window : Window) (l l2 : List Entry) (e0 : Entry) (new : List Call)
    (hmem : ∀ e ∈ l2, e = e0 ∨ e ∈ l)
    (hnew : ∀ k ∈ new, ∃ e ∈ l2 ++ [transportEntry window],
      k.fn = e.fn.fn.id ∧ k.options = e.fn.options) :
    (∀ k ∈ new, (k.fn = e0.fn.fn.id ∧ k.options = e0.fn.options) ∨
      ∃ e ∈ l ++ [transportEntry window], k.fn = e.fn.fn.id ∧ k.options = e.fn.options) ∧
    ((∀ e ∈ l ++ [transportEntry window], e.fn.fn.id ≠ e0.fn.fn.id) →
      ∀ k ∈ new, k.fn = e0.fn.fn.id → k.options = e0.fn.options) := by
  have h1 : ∀ k ∈ new, (k.fn = e0.fn.fn.id ∧ k.options = e0.fn.options) ∨
      ∃ e ∈ l ++ [transportEntry window], k.fn = e.fn.fn.id ∧ k.options = e.fn.options := by
    intro k hk
    obtain ⟨e, he, hfn, hopt⟩ := hnew k hk
    rcases List.mem_append.mp he with he | he
    · rcases hmem e he with rfl | hl
      · exact Or.inl ⟨hfn, hopt⟩
      · exact Or.inr ⟨e, List.mem_append_left _ hl, hfn, hopt⟩
    · exact Or.inr ⟨e, List.mem_append_right _ he, hfn, hopt⟩
  refine ⟨h1, ?_⟩
  intro hfresh k hk hfn
  rcases h1 k hk with ⟨-, hopt⟩ | ⟨e, he, hfn2, -⟩
  · exact hopt
  · exact absurd (hfn2.symm.trans hfn) (hfresh e he)

/-- C8 (options pass-through): after `use` or `addTemp` of a middleware with function `f` and
options `o` (`undefined` when it has none), every call a `fetch` makes is a call of `f` with
exactly `o` as third argument or a call of another link with the options of that link,
whatever the other entries and the input are; so when no other link has the function `f`,
every call of `f` has `o` as third argument. -/
theorem options_pass_through (window : Window) (h : Heap) (this : Nat) (name : String)
    (f : MiddlewareFn) (o : Val) (options : AddTempOptions) (input fopts : Val)
    (t : List Call) (hv : h.Valid this) (hname : name ≠ "") (hoptions : options ≠ .null) :
    ((use this (.record (.data (.str name)) (.func f) o) h).1 = .ok () ∧
      ∃ new, (fetch window this input fopts
          ⟨(use this (.record (.data (.str name)) (.func f) o) h).2, t⟩).2.trace = t ++ new ∧
        (∀ k ∈ new, (k.fn = f.id ∧ k.options = o) ∨
          ∃ e ∈ h.installed this ++ [transportEntry window],
            k.fn = e.fn.fn.id ∧ k.options = e.fn.options) ∧
        ((∀ e ∈ h.installed this ++ [transportEntry window], e.fn.fn.id ≠ f.id) →
          ∀ k ∈ new, k.fn = f.id → k.options = o)) ∧
    (∃ self, (addTemp this (.record (.data (.str name)) (.func f) o) options h).1 = .ok self ∧
      ∃ new, (fetch window self input fopts
          ⟨(addTemp this (.record (.data (.str name)) (.func f) o) options h).2,
            t⟩).2.trace = t ++ new ∧
        (∀ k ∈ new, (k.fn = f.id ∧ k.options = o) ∨
          ∃ e ∈ h.installed this ++ [transportEntry window],
            k.fn = e.fn.fn.id ∧ k.options = e.fn.options) ∧
        ((∀ e ∈ h.installed this ++ [transportEntry window], e.fn.fn.id ≠ f.id) →
          ∀ k ∈ new, k.fn = f.id → k.options = o)) := by
  constructor
  · obtain ⟨h1, h2⟩ := use_record this name f o h hv hname
    refine ⟨h1, ?_⟩
    obtain ⟨new, k1, k2⟩ := fetch_calls_of_entries window this input fopts
      ⟨(use this (.record (.data (.str name)) (.func f) o) h).2, t⟩
    refine ⟨new, k1, ?_⟩
    simp only [h2] at k2
    exact calls_of_added window (h.installed this) _ ⟨name, ⟨f, o⟩⟩ new
      (fun e he => by
        rcases List.mem_append.mp he with he | he
        · exact Or.inr he
        · exact Or.inl (List.mem_singleton.mp he))
      k2
  · have hp : ∃ p, options.prepend = .ok p := by
      cases options with
      | undefined => exact ⟨_, rfl⟩
      | null => exact absurd rfl hoptions
      | value p => exact ⟨_, rfl⟩
    obtain ⟨p, hp⟩ := hp
    rw [addTemp_record this name f o options p h hv hname hp]
    refine ⟨_, rfl, ?_⟩
    obtain ⟨new, k1, k2⟩ := fetch_calls_of_entries window h.objects.length input fopts
      ⟨⟨h.arrays ++ [[], if p.truthy then ⟨name, ⟨f, o⟩⟩ :: h.installed this
            else h.installed this ++ [⟨name, ⟨f, o⟩⟩]],
          h.objects ++ [⟨h.arrays.length + 1⟩]⟩, t⟩
    refine ⟨new, k1, ?_⟩
    simp only [(Heap.installed_last h _).2] at k2
    exact calls_of_added window (h.installed this) _ ⟨name, ⟨f, o⟩⟩ new
      (fun e he => by
        by_cases htr : p.truthy = true
        · rw [if_pos htr] at he
          rcases List.mem_cons.mp he with he | he
          · exact Or.inl he
          · exact Or.inr he
        · rw [if_neg htr] at he
          rcases List.mem_append.mp he with he | he
          · exact Or.inr he
          · exact Or.inl (List.mem_singleton.mp he))
      k2

/-- The middleware `fourth` with options `obj 9`, added to the receiver with two entries. -/
theorem options_pass_through_witness :
    Sample.twoPass.Valid 0 ∧ "fourth" ≠ "" ∧ AddTempOptions.undefined ≠ .null ∧
    ((use 0 Sample.fourth Sample.twoPass).1 = .ok () ∧
      ∃ new, (fetch Sample.window 0 (.request Sample.request) .undefined
          ⟨(use 0 Sample.fourth Sample.twoPass).2, []⟩).2.trace = [] ++ new ∧
        (∀ k ∈ new, (k.fn = 4 ∧ k.options = .obj 9) ∨
          ∃ e ∈ Sample.twoPass.installed 0 ++ [transportEntry Sample.window],
            k.fn = e.fn.fn.id ∧ k.options = e.fn.options) ∧
        ((∀ e ∈ Sample.twoPass.installed 0 ++ [transportEntry Sample.window],
            e.fn.fn.id ≠ 4) →
          ∀ k ∈ new, k.fn = 4 → k.options = .obj 9)) ∧
    (∃ self, (addTemp 0 Sample.fourth .undefined Sample.twoPass).1 = .ok self ∧
      ∃ new, (fetch Sample.window self (.request Sample.request) .undefined
          ⟨(addTemp 0 Sample.fourth .undefined Sample.twoPass).2, []⟩).2.trace = [] ++ new ∧
        (∀ k ∈ new, (k.fn = 4 ∧ k.options = .obj 9) ∨
          ∃ e ∈ Sample.twoPass.installed 0 ++ [transportEntry Sample.window],
            k.fn = e.fn.fn.id ∧ k.options = e.fn.options) ∧
        ((∀ e ∈ Sample.twoPass.installed 0 ++ [transportEntry Sample.window],
            e.fn.fn.id ≠ 4) →
          ∀ k ∈ new, k.fn = 4 → k.options = .obj 9)) :=
  ⟨by decide, by decide, fun h => AddTempOptions.noConfusion h,
    options_pass_through Sample.window Sample.twoPass 0 "fourth" (Sample.passOn 4) (.obj 9)
      .undefined (.request Sample.request) .undefined [] (by decide) (by decide)
      (fun h => AddTempOptions.noConfusion h)⟩

/-! ## Validation -/

theorem verify_ok_iff (a : Arg) : (∃ m, _verifyMiddleware a = .ok m) ↔ a.WellFormed := by
  cases a with
  | plain x =>
    cases x with
    | data v =>
      cases v <;> simp [_verifyMiddleware, Arg.WellFormed, Arg.truthy, Arg.typeof, Arg.name,
        Arg.fn, Field.truthy, Field.typeof, Val.truthy, Val.typeof]
    | func f =>
      simp [_verifyMiddleware, Arg.WellFormed, Arg.truthy, Arg.typeof, Arg.name, Arg.fn,
        Field.truthy, Field.typeof, Val.truthy, Val.typeof]
  | record n f o =>
    cases n with
    | data v =>
      cases f with
      | data v2 =>
        cases v <;> cases v2 <;> simp [_verifyMiddleware, Arg.WellFormed, Arg.truthy,
          Arg.typeof, Arg.name, Arg.fn, Field.truthy, Field.typeof, Val.truthy, Val.typeof]
      | func g =>
        cases v with
        | str s =>
          by_cases hs : s = "" <;> simp [_verifyMiddleware, Arg.WellFormed, Arg.truthy,
            Arg.typeof, Arg.name, Arg.fn, Field.truthy, Field.typeof, Val.truthy, Val.typeof, hs]
        | _ =>
          simp [_verifyMiddleware, Arg.WellFormed, Arg.truthy, Arg.typeof, Arg.name, Arg.fn,
            Field.truthy, Field.typeof, Val.truthy, Val.typeof]
    | func g =>
      cases f <;> simp [_verifyMiddleware, Arg.WellFormed, Arg.truthy, Arg.typeof, Arg.name,
        Arg.fn, Field.truthy, Field.typeof, Val.truthy, Val.typeof]

theorem verify_error_isTypeError (a : Arg) (e : Err) (h : _verifyMiddleware a = .error e) :
    e.IsTypeError := by
  unfold _verifyMiddleware at h
  split at h
  · split at h
    · split at h
      · cases h
      · cases h; exact ⟨_, rfl⟩
    · cases h; exact ⟨_, rfl⟩
  · cases h; exact ⟨_, rfl⟩

theorem verify_ok_record (a : Arg) (m : Middleware) (h : _verifyMiddleware a = .ok m) :
    a = .record (.data (.str m.name)) (.func m.fn) m.options ∧ m.name ≠ "" := by
  unfold _verifyMiddleware at h
  split at h
  · split at h
    · rename_i s f hn hf
      split at h
      · rename_i hs
        cases h
        cases a with
        | plain x => simp [Arg.name] at hn
        | record n g o =>
          simp [Arg.name, Arg.fn] at hn hf
          subst hn hf
          exact ⟨rfl, by simpa using hs⟩
      · cases h
    · cases h
  · cases h

/-- C11, as the code has it: `use` throws a `TypeError` exactly when the middleware argument
is malformed and returns normally exactly when it is a non-null object whose `name` is a
non-empty string and whose `fn` is a function, whatever its `options`; so does `addTemp`
when its second argument is not `null`. -/
theorem register_throws_iff_malformed (this : Nat) (a : Arg) (options : AddTempOptions)
    (h : Heap) (hoptions : options ≠ .null) :
    ((∃ e, (use this a h).1 = .error e ∧ e.IsTypeError) ↔ ¬ a.WellFormed) ∧
    ((use this a h).1 = .ok () ↔ a.WellFormed) ∧
    ((∃ e, (addTemp this a options h).1 = .error e ∧ e.IsTypeError) ↔ ¬ a.WellFormed) ∧
    ((∃ self, (addTemp this a options h).1 = .ok self) ↔ a.WellFormed) := by
  have hp : ∃ p, options.prepend = .ok p := by
    cases options with
    | undefined => exact ⟨_, rfl⟩
    | null => exact absurd rfl hoptions
    | value p => exact ⟨_, rfl⟩
  obtain ⟨p, hp⟩ := hp
  cases hv : _verifyMiddleware a with
  | error e =>
    have hw : ¬ a.WellFormed := by
      intro hw
      obtain ⟨m, hm⟩ := (verify_ok_iff a).mpr hw
      rw [hv] at hm
      cases hm
    have hte := verify_error_isTypeError a e hv
    have huse : (use this a h).1 = .error e := by
      unfold use
      rw [hv]
    have hadd : (addTemp this a options h).1 = .error e := by
      unfold addTemp
      rw [hp]
      dsimp only
      rw [hv]
    rw [huse, hadd]
    refine ⟨⟨fun _ => hw, fun _ => ⟨e, rfl, hte⟩⟩, ⟨fun hk => (by cases hk), fun hk => absurd hk hw⟩,
      ⟨fun _ => hw, fun _ => ⟨e, rfl, hte⟩⟩, ⟨fun hk => ?_, fun hk => absurd hk hw⟩⟩
    obtain ⟨self, hself⟩ := hk
    cases hself
  | ok m =>
    have hw : a.WellFormed := (verify_ok_iff a).mp ⟨m, hv⟩
    have huse : (use this a h).1 = .ok () := by
      unfold use
      rw [hv]
    have hadd : ∃ self, (addTemp this a options h).1 = .ok self := by
      unfold addTemp
      rw [hp]
      dsimp only
      rw [hv]
      dsimp only
      split <;> exact ⟨_, rfl⟩
    obtain ⟨self, hself⟩ := hadd
    rw [huse, hself]
    refine ⟨⟨fun hk => ?_, fun hk => absurd hw hk⟩, ⟨fun _ => hw, fun _ => rfl⟩,
      ⟨fun hk => ?_, fun hk => absurd hw hk⟩, ⟨fun _ => hw, fun _ => ⟨self, rfl⟩⟩⟩
    · obtain ⟨e, he, -⟩ := hk
      cases he
    · obtain ⟨e, he, -⟩ := hk
      cases he

/-- The middleware `third` is well-formed, the malformed `null` is not, and `use` and `addTemp`
without a second argument tell them apart. -/
theorem register_throws_iff_malformed_witness :
    AddTempOptions.undefined ≠ .null ∧ Sample.third.WellFormed ∧
    ((∃ e, (use 0 Sample.third Sample.twoPass).1 = .error e ∧ e.IsTypeError) ↔
      ¬ Sample.third.WellFormed) ∧
    ((use 0 Sample.third Sample.twoPass).1 = .ok () ↔ Sample.third.WellFormed) ∧
    ((∃ e, (addTemp 0 Sample.third .undefined Sample.twoPass).1 = .error e ∧ e.IsTypeError) ↔
      ¬ Sample.third.WellFormed) ∧
    ((∃ self, (addTemp 0 Sample.third .undefined Sample.twoPass).1 = .ok self) ↔
      Sample.third.WellFormed) :=
  ⟨fun h => AddTempOptions.noConfusion h, ⟨rfl, rfl, rfl, rfl, rfl⟩,
    register_throws_iff_malformed 0 Sample.third .undefined Sample.twoPass
      (fun h => AddTempOptions.noConfusion h)⟩

/-- C11 as stated fails for `addTemp`: with the well-formed middleware `third` and `null` as
second argument, destructuring the parameter throws a `TypeError` before the middleware is
looked at, so `addTemp` throws although the middleware argument is not malformed. -/
theorem addTemp_throws_on_null_options :
    Sample.third.WellFormed ∧
    (addTemp 0 Sample.third .null Sample.twoPass).1 = .error cannotDestructure ∧
    cannotDestructure.IsTypeError ∧
    ¬ ((∃ e, (addTemp 0 Sample.third .null Sample.twoPass).1 = .error e ∧ e.IsTypeError) ↔
      ¬ Sample.third.WellFormed) ∧
    ¬ ((∃ self, (addTemp 0 Sample.third .null Sample.twoPass).1 = .ok self) ↔
      Sample.third.WellFormed) := by
  have hw : Sample.third.WellFormed := ⟨rfl, rfl, rfl, rfl, rfl⟩
  have ht : cannotDestructure.IsTypeError := ⟨_, rfl⟩
  refine ⟨hw, rfl, ht, ?_, ?_⟩
  · intro hiff
    exact hiff.mp ⟨cannotDestructure, rfl, ht⟩ hw
  · intro hiff
    obtain ⟨self, hself⟩ := hiff.mpr hw
    cases hself

/-- With `null` as second argument `addTemp` throws the `TypeError` of destructuring `null`,
whatever the middleware argument is, and leaves the heap as it was. -/
theorem addTemp_null_throws (this : Nat) (a : Arg) (h : Heap) :
    addTemp this a .null h = (.error cannotDestructure, h) := rfl

/-- C12: `removeTemp` throws a `TypeError` exactly when its argument is not a non-empty
string, and for every non-empty string it returns an object. -/
theorem removeTemp_throws_iff_bad_name (this : Nat) (name : Field) (h : Heap) :
    ((∃ e, (removeTemp this name h).1 = .error e ∧ e.IsTypeError) ↔ ¬ name.NonEmptyString) ∧
    ((∃ self, (removeTemp this name h).1 = .ok self) ↔ name.NonEmptyString) := by
  have hte : badName.IsTypeError := ⟨_, rfl⟩
  by_cases hn : name.NonEmptyString
  · obtain ⟨s, rfl, hs⟩ := hn
    have hok : (removeTemp this (.data (.str s)) h).1 = .ok (D2LFetch.new h).1 := by
      simp [removeTemp, Field.truthy, Field.typeof, Val.truthy, Val.typeof, hs]
    rw [hok]
    refine ⟨⟨fun hk => ?_, fun hk => absurd ⟨s, rfl, hs⟩ hk⟩,
      ⟨fun _ => ⟨s, rfl, hs⟩, fun _ => ⟨_, rfl⟩⟩⟩
    obtain ⟨e, he, -⟩ := hk
    cases he
  · have herr : (removeTemp this name h).1 = .error badName := by
      cases name with
      | data v =>
        cases v with
        | str s =>
          have hs : s = "" := by
            by_contra hs
            exact hn ⟨s, rfl, hs⟩
          simp [removeTemp, Field.truthy, Field.typeof, Val.truthy, Val.typeof, hs]
        | _ => simp [removeTemp, Field.truthy, Field.typeof, Val.truthy, Val.typeof]
      | func f => simp [removeTemp, Field.truthy, Field.typeof]
    rw [herr]
    refine ⟨⟨fun _ => hn, fun _ => ⟨_, rfl, hte⟩⟩, ⟨fun hk => ?_, fun hk => absurd hk hn⟩⟩
    obtain ⟨self, hself⟩ := hk
    cases hself

/-- C20: a validation failure changes nothing.  `use` with a malformed middleware throws and
leaves the heap as it was: nothing is appended to the list of the receiver.  When `addTemp` or
`removeTemp` throws, the heap is as it was: the list of the receiver is unchanged and no
object has been allocated. -/
theorem failed_validation_changes_nothing (this : Nat) (a : Arg) (options : AddTempOptions)
    (name : Field) (h : Heap) :
    (¬ a.WellFormed → (∃ e, (use this a h).1 = .error e) ∧ (use this a h).2 = h) ∧
    ((∃ e, (addTemp this a options h).1 = .error e) → (addTemp this a options h).2 = h) ∧
    ((∃ e, (removeTemp this name h).1 = .error e) → (removeTemp this name h).2 = h) := by
  refine ⟨?_, ?_, ?_⟩
  · intro hw
    cases hv : _verifyMiddleware a with
    | error e =>
      unfold use
      rw [hv]
      exact ⟨⟨e, rfl⟩, rfl⟩
    | ok m => exact absurd ((verify_ok_iff a).mp ⟨m, hv⟩) hw
  · intro hk
    obtain ⟨e, he⟩ := hk
    unfold addTemp at he ⊢
    cases hp : options.prepend with
    | error e2 => rfl
    | ok p =>
      rw [hp] at he
      dsimp only at he ⊢
      cases hv : _verifyMiddleware a with
      | error e2 => rfl
      | ok m =>
        rw [hv] at he
        dsimp only at he
        split at he <;> cases he
  · intro hk
    obtain ⟨e, he⟩ := hk
    unfold removeTemp at he ⊢
    split
    · rfl
    · rename_i hc
      rw [if_neg hc] at he
      cases he

/-- The malformed middleware `null`, the second argument `null` and the name `''` on the
receiver with two entries: each call throws and the heap is as before. -/
theorem failed_validation_changes_nothing_witness :
    ¬ (Arg.plain (.data .null)).WellFormed ∧
    (∃ e, (addTemp 0 (.plain (.data .null)) .null Sample.twoPass).1 = .error e) ∧
    (∃ e, (removeTemp 0 (.data (.str "")) Sample.twoPass).1 = .error e) ∧
    ((∃ e, (use 0 (.plain (.data .null)) Sample.twoPass).1 = .error e) ∧
      (use 0 (.plain (.data .null)) Sample.twoPass).2 = Sample.twoPass) ∧
    (addTemp 0 (.plain (.data .null)) .null Sample.twoPass).2 = Sample.twoPass ∧
    (removeTemp 0 (.data (.str "")) Sample.twoPass).2 = Sample.twoPass := by
  have hw : ¬ (Arg.plain (.data .null)).WellFormed := by
    intro hw
    exact absurd hw.2.1 (by decide)
  have h1 : ∃ e, (addTemp 0 (.plain (.data .null)) .null Sample.twoPass).1 = .error e :=
    ⟨_, rfl⟩
  have h2 : ∃ e, (removeTemp 0 (.data (.str "")) Sample.twoPass).1 = .error e := ⟨_, rfl⟩
  have key := failed_validation_changes_nothing 0 (.plain (.data .null)) .null
    (.data (.str "")) Sample.twoPass
  exact ⟨hw, h1, h2, key.1 hw, key.2.1 h1, key.2.2 h2⟩

/-! ## The result of the transport -/

theorem Wrapped.call_passes_to_last (chain : Nat) (t : Entry) :
    ∀ (es : List Entry) (n : Nat) (w : Wrapped) (x : Val) (s : Bounded chain n),
      s.1.heap.readArray chain = es ++ [t] → w.fn.PassesOn →
      (∀ e ∈ es, e.fn.fn.PassesOn) →
      ∃ (tr : List Call) (y : Val),
        (Wrapped.call chain n w x s).2.1.trace =
          s.1.trace ++ tr ++ [⟨t.fn.fn.id, y, none, t.fn.options⟩] ∧
        calledFns tr = w.fn.id :: fnIds es ∧
        (Wrapped.call chain n w x s).1 = (t.fn.fn.body y false t.fn.options).withoutNext := by
  intro es
  induction es with
  | nil =>
    intro n w x s hc hw _
    obtain ⟨m, rfl⟩ := bound_pos_of_cons s hc
    obtain ⟨y, s1, hchain, htrace, hout, hst⟩ :=
      Wrapped.call_passesOn_step chain m w x s t [] hc hw
    refine ⟨[⟨w.fn.id, x, some t.fn.fn.id, w.options⟩], y, ?_, ?_, ?_⟩
    · rw [hst, Wrapped.call_nil chain m t.fn y s1 hchain, htrace]
    · simp [calledFns, fnIds]
    · rw [hout, Wrapped.call_nil chain m t.fn y s1 hchain]
  | cons e es ih =>
    intro n w x s hc hw hes
    obtain ⟨m, rfl⟩ := bound_pos_of_cons s hc
    obtain ⟨y, s1, hchain, htrace, hout, hst⟩ :=
      Wrapped.call_passesOn_step chain m w x s e (es ++ [t]) hc hw
    obtain ⟨tr, z, h1, h2, h3⟩ := ih m e.fn y s1 hchain (hes e (List.mem_cons_self _ _))
      (fun e2 he2 => hes e2 (List.mem_cons_of_mem _ he2))
    refine ⟨⟨w.fn.id, x, some e.fn.fn.id, w.options⟩ :: tr, z, ?_, ?_, ?_⟩
    · rw [hst, h1, htrace]
      simp
    · simp [calledFns, fnIds] at h2 ⊢
      exact h2
    · rw [hout, h3]

/-- C13: when every installed function is `return next(y)`, whatever their number, the last
call of a `fetch` on an accepted input is the call of `window.fetch` and `fetch` completes as
that call completed: the value `window.fetch` returned is the value `fetch` returns, a
rejected promise included. -/
theorem fetch_returns_transport_result (window : Window) (this : Nat) (input options : Val)
    (s : St) (r : Request) (hacc : Accepted window input options r)
    (hpass : ∀ e ∈ s.heap.installed this, e.fn.fn.PassesOn) :
    ∃ (tr : List Call) (y : Val),
      (fetch window this input options s).2.trace =
        s.trace ++ tr ++ [⟨window.fetch.id, y, none, .undefined⟩] ∧
      calledFns tr = fnIds (s.heap.installed this) ∧
      (fetch window this input options s).1 =
        (window.fetch.body y false .undefined).withoutNext ∧
      (∀ v, window.fetch.body y false .undefined = .ret v →
        (fetch window this input options s).1 = .ok v) := by
  have key : ∃ (tr : List Call) (y : Val),
      (fetch window this input options s).2.trace =
        s.trace ++ tr ++ [⟨window.fetch.id, y, none, .undefined⟩] ∧
      calledFns tr = fnIds (s.heap.installed this) ∧
      (fetch window this input options s).1 =
        (window.fetch.body y false .undefined).withoutNext := by
    cases hL : s.heap.installed this with
    | nil =>
      obtain ⟨n, b, htrace, hchain, -, -, -, hfetch⟩ :=
        fetch_accepted window this input options s r (transportEntry window) [] hacc
          (by rw [hL]; rfl)
      refine ⟨[], .request r, ?_, rfl, ?_⟩
      · rw [hfetch, Wrapped.call_nil _ n _ _ b hchain]
        simp [htrace, transportEntry, _wrapMiddleware]
      · rw [hfetch, Wrapped.call_nil _ n _ _ b hchain]
        rfl
    | cons a l =>
      obtain ⟨n, b, htrace, hchain, -, -, -, hfetch⟩ :=
        fetch_accepted window this input options s r a (l ++ [transportEntry window]) hacc
          (by rw [hL]; rfl)
      rw [hL] at hpass
      obtain ⟨tr, y, h1, h2, h3⟩ := Wrapped.call_passes_to_last _ (transportEntry window) l n
        a.fn (.request r) b hchain (hpass a (List.mem_cons_self _ _))
        (fun e he => hpass e (List.mem_cons_of_mem _ he))
      refine ⟨tr, y, ?_, ?_, ?_⟩
      · rw [hfetch]
        simp only []
        rw [h1, htrace]
        rfl
      · simpa [calledFns, fnIds] using h2
      · rw [hfetch]
        exact h3
  obtain ⟨tr, y, h1, h2, h3⟩ := key
  refine ⟨tr, y, h1, h2, h3, ?_⟩
  intro v hv
  rw [h3, hv]
  rfl

/-- With `passOn 1` and `passOn 2` installed and a `window.fetch` that returns a rejected
promise, `fetch` returns that rejected promise. -/
theorem fetch_returns_transport_result_witness :
    Accepted Sample.putWindow (.request Sample.request) .undefined Sample.request ∧
    (∀ e ∈ Sample.twoPass.installed 0, e.fn.fn.PassesOn) ∧
    ∃ (tr : List Call) (y : Val),
      (fetch Sample.putWindow 0 (.request Sample.request) .undefined
        ⟨Sample.twoPass, []⟩).2.trace = [] ++ tr ++ [⟨0, y, none, .undefined⟩] ∧
      calledFns tr = [1, 2] ∧
      (fetch Sample.putWindow 0 (.request Sample.request) .undefined
        ⟨Sample.twoPass, []⟩).1 = .ok (.rejected (.other 7)) ∧
      (∀ v, Sample.putWindow.fetch.body y false .undefined = .ret v →
        (fetch Sample.putWindow 0 (.request Sample.request) .undefined
          ⟨Sample.twoPass, []⟩).1 = .ok v) := by
  have hyp : ∀ e ∈ Sample.twoPass.installed 0, e.fn.fn.PassesOn := by
    intro e he
    simp [Sample.twoPass, Heap.installed, Heap.readArray, Heap.field] at he
    rcases he with rfl | rfl <;> exact Sample.passOn_passesOn _
  exact ⟨Or.inl rfl, hyp,
    fetch_returns_transport_result Sample.putWindow 0 (.request Sample.request) .undefined
      ⟨Sample.twoPass, []⟩ Sample.request (Or.inl rfl) hyp⟩

/-! ## A string input -/

/-- C16: when the `Request` constructor builds `r` from `(url, options)`, `fetch(url, options)`
is `fetch(r)`: the same completion, the same calls with the same arguments in the same order
(so the same request, with the url and the method of `r`, wherever a call is reached), the
same state after. -/
theorem fetch_url_as_request (window : Window) (this : Nat) (url : String)
    (options options2 : Val) (s : St) (r : Request)
    (hreq : window.newRequest url options = .ok r) :
    fetch window this (.str url) options s = fetch window this (.request r) options2 s := by
  unfold fetch
  simp [hreq, Except.map]

/-- The request built from `/path/to/data` and the options `obj 1` has the method `PUT`; the
`fetch` of the string and the `fetch` of that request are the same. -/
theorem fetch_url_as_request_witness :
    Sample.putWindow.newRequest "/path/to/data" (.obj 1) = .ok ⟨"/path/to/data", "PUT"⟩ ∧
    fetch Sample.putWindow 0 (.str "/path/to/data") (.obj 1) ⟨Sample.twoPass, []⟩ =
      fetch Sample.putWindow 0 (.request ⟨"/path/to/data", "PUT"⟩) .undefined
        ⟨Sample.twoPass, []⟩ :=
  ⟨rfl, fetch_url_as_request Sample.putWindow 0 "/path/to/data" (.obj 1) .undefined
    ⟨Sample.twoPass, []⟩ ⟨"/path/to/data", "PUT"⟩ rfl⟩

/-! ## `use` appends -/

/-- C17: `use` of a well-formed middleware on a receiver with entries L returns normally and
leaves the receiver with the same array, holding L followed by one new entry, which has the
name of the middleware: one entry more, the entries of L as they were. -/
theorem use_appends (h : Heap) (this : Nat) (name : String) (f : MiddlewareFn) (o : Val)
    (hv : h.Valid this) (hname : name ≠ "") :
    (use this (.record (.data (.str name)) (.func f) o) h).1 = .ok () ∧
    (use this (.record (.data (.str name)) (.func f) o) h).2.field this = h.field this ∧
    (use this (.record (.data (.str name)) (.func f) o) h).2.installed this =
      h.installed this ++ [⟨name, _wrapMiddleware f o⟩] ∧
    ((use this (.record (.data (.str name)) (.func f) o) h).2.installed this).length =
      (h.installed this).length + 1 := by
  obtain ⟨h1, h2⟩ := use_record this name f o h hv hname
  refine ⟨h1, ?_, h2, ?_⟩
  · unfold use
    rw [verify_record name f o hname]
    rfl
  · rw [h2]
    simp

/-- The middleware `third` is appended to the two entries of the receiver. -/
theorem use_appends_witness :
    Sample.twoPass.Valid 0 ∧ "third" ≠ "" ∧
    (use 0 Sample.third Sample.twoPass).1 = .ok () ∧
    (use 0 Sample.third Sample.twoPass).2.field 0 = Sample.twoPass.field 0 ∧
    (use 0 Sample.third Sample.twoPass).2.installed 0 =
      Sample.twoPass.installed 0 ++ [⟨"third", _wrapMiddleware (Sample.passOn 3) .undefined⟩] ∧
    ((use 0 Sample.third Sample.twoPass).2.installed 0).length =
      (Sample.twoPass.installed 0).length + 1 :=
  ⟨by decide, by decide,
    use_appends Sample.twoPass 0 "third" (Sample.passOn 3) .undefined (by decide) (by decide)⟩

/-! ## Adding, then removing -/

/-- C19, as the code has it: on a receiver with no entry named `name`, `addTemp` of a
well-formed middleware of that name, placed first or last, followed by `removeTemp(name)` on
the object returned, gives an object with the entries of the receiver, in their order; every
`fetch` on it completes as on the receiver and makes the same calls.  The function of the
middleware is called as often as a `fetch` on the receiver calls it: never, when it is the
function of no entry of the receiver and not `window.fetch`. -/
theorem addTemp_then_removeTemp (window : Window) (h : Heap) (this : Nat) (name : String)
    (f : MiddlewareFn) (o : Val) (options : AddTempOptions)
    (hv : h.Valid this) (hname : name ≠ "") (hoptions : options ≠ .null)
    (hfresh : ∀ e ∈ h.installed this, e.name ≠ name) :
    ∃ self1 self2,
      (addTemp this (.record (.data (.str name)) (.func f) o) options h).1 = .ok self1 ∧
      (removeTemp self1 (.data (.str name))
        (addTemp this (.record (.data (.str name)) (.func f) o) options h).2).1 = .ok self2 ∧
      (removeTemp self1 (.data (.str name))
        (addTemp this (.record (.data (.str name)) (.func f) o) options h).2).2.installed self2 =
          h.installed this ∧
      ∀ (input fopts : Val) (t : List Call),
        (fetch window self2 input fopts
          ⟨(removeTemp self1 (.data (.str name))
            (addTemp this (.record (.data (.str name)) (.func f) o) options h).2).2, t⟩).1 =
          (fetch window this input fopts ⟨h, t⟩).1 ∧
        (fetch window self2 input fopts
          ⟨(removeTemp self1 (.data (.str name))
            (addTemp this (.record (.data (.str name)) (.func f) o) options h).2).2, t⟩).2.trace =
          (fetch window this input fopts ⟨h, t⟩).2.trace ∧
        ((∀ e ∈ h.installed this ++ [transportEntry window], e.fn.fn.id ≠ f.id) →
          ∃ new, (fetch window self2 input fopts
            ⟨(removeTemp self1 (.data (.str name))
              (addTemp this (.record (.data (.str name)) (.func f) o) options h).2).2,
              t⟩).2.trace = t ++ new ∧
            ∀ k ∈ new, k.fn ≠ f.id) := by
  have hp : ∃ p, options.prepend = .ok p := by
    cases options with
    | undefined => exact ⟨_, rfl⟩
    | null => exact absurd rfl hoptions
    | value p => exact ⟨_, rfl⟩
  obtain ⟨p, hp⟩ := hp
  rw [addTemp_record this name f o options p h hv hname hp]
  refine ⟨h.objects.length, (h.objects ++ [D2LFetch.mk (h.arrays.length + 1)]).length, rfl, ?_⟩
  simp only []
  obtain ⟨k1, k2⟩ := Heap.installed_last h
    (if p.truthy then ⟨name, ⟨f, o⟩⟩ :: h.installed this else h.installed this ++ [⟨name, ⟨f, o⟩⟩])
  have hv1 : (⟨h.arrays ++ [[], if p.truthy then ⟨name, ⟨f, o⟩⟩ :: h.installed this
      else h.installed this ++ [⟨name, ⟨f, o⟩⟩]],
      h.objects ++ [⟨h.arrays.length + 1⟩]⟩ : Heap).Valid h.objects.length := by
    refine ⟨by simp, ?_⟩
    rw [k1]
    simp
  rw [removeTemp_string _ name _ hv1 hname]
  have hlist : ((⟨h.arrays ++ [[], if p.truthy then ⟨name, ⟨f, o⟩⟩ :: h.installed this
      else h.installed this ++ [⟨name, ⟨f, o⟩⟩]],
      h.objects ++ [⟨h.arrays.length + 1⟩]⟩ : Heap).installed h.objects.length).filter
        (fun e => !(name == e.name)) = h.installed this := by
    rw [k2]
    have hkeep : (h.installed this).filter (fun e => !(name == e.name)) = h.installed this := by
      apply List.filter_eq_self.mpr
      intro e he
      have hne : ¬ name = e.name := fun h2 => hfresh e he h2.symm
      simp [hne]
    by_cases htr : p.truthy = true
    · rw [if_pos htr]
      simp [List.filter_cons, hkeep]
    · rw [if_neg htr]
      simp [List.filter_append, hkeep]
  have hinst := (Heap.installed_last
    (⟨h.arrays ++ [[], if p.truthy then ⟨name, ⟨f, o⟩⟩ :: h.installed this
      else h.installed this ++ [⟨name, ⟨f, o⟩⟩]],
      h.objects ++ [⟨h.arrays.length + 1⟩]⟩ : Heap)
    (((⟨h.arrays ++ [[], if p.truthy then ⟨name, ⟨f, o⟩⟩ :: h.installed this
      else h.installed this ++ [⟨name, ⟨f, o⟩⟩]],
      h.objects ++ [⟨h.arrays.length + 1⟩]⟩ : Heap).installed h.objects.length).filter
        (fun e => !(name == e.name)))).2
  refine ⟨rfl, hinst.trans hlist, ?_⟩
  intro input fopts t
  obtain ⟨hout, htr⟩ :=
    fetch_same_installed window _ this input fopts _ h t (hinst.trans hlist)
  refine ⟨hout, htr, ?_⟩
  intro hother
  obtain ⟨new, k1, k2⟩ := fetch_calls_of_entries window
    (h.objects ++ [D2LFetch.mk (h.arrays.length + 1)]).length input fopts
    ⟨_, t⟩
  refine ⟨new, k1, ?_⟩
  intro k hk
  obtain ⟨e, he, hfn, -⟩ := k2 k hk
  simp only [] at he
  rw [hinst.trans hlist] at he
  rw [hfn]
  exact hother e he

/-- The middleware `third`, with the function `passOn 3`, added first to the receiver with
entries `first` and `second` (functions `passOn 1` and `passOn 2`) and removed again. -/
theorem addTemp_then_removeTemp_witness :
    Sample.twoPass.Valid 0 ∧ "third" ≠ "" ∧ AddTempOptions.value (.bool true) ≠ .null ∧
    (∀ e ∈ Sample.twoPass.installed 0, e.name ≠ "third") ∧
    (∀ e ∈ Sample.twoPass.installed 0 ++ [transportEntry Sample.window], e.fn.fn.id ≠ 3) ∧
    ∃ self1 self2,
      (addTemp 0 Sample.third (.value (.bool true)) Sample.twoPass).1 = .ok self1 ∧
      (removeTemp self1 (.data (.str "third"))
        (addTemp 0 Sample.third (.value (.bool true)) Sample.twoPass).2).1 = .ok self2 ∧
      (removeTemp self1 (.data (.str "third"))
        (addTemp 0 Sample.third (.value (.bool true)) Sample.twoPass).2).2.installed self2 =
          Sample.twoPass.installed 0 ∧
      ∀ (input fopts : Val) (t : List Call),
        (fetch Sample.window self2 input fopts
          ⟨(removeTemp self1 (.data (.str "third"))
            (addTemp 0 Sample.third (.value (.bool true)) Sample.twoPass).2).2, t⟩).1 =
          (fetch Sample.window 0 input fopts ⟨Sample.twoPass, t⟩).1 ∧
        (fetch Sample.window self2 input fopts
          ⟨(removeTemp self1 (.data (.str "third"))
            (addTemp 0 Sample.third (.value (.bool true)) Sample.twoPass).2).2, t⟩).2.trace =
          (fetch Sample.window 0 input fopts ⟨Sample.twoPass, t⟩).2.trace ∧
        ∃ new, (fetch Sample.window self2 input fopts
            ⟨(removeTemp self1 (.data (.str "third"))
              (addTemp 0 Sample.third (.value (.bool true)) Sample.twoPass).2).2,
              t⟩).2.trace = t ++ new ∧
          ∀ k ∈ new, k.fn ≠ 3 := by
  have hyp : ∀ e ∈ Sample.twoPass.installed 0, e.name ≠ "third" := by
    intro e he
    simp [Sample.twoPass, Heap.installed, Heap.readArray, Heap.field] at he
    rcases he with rfl | rfl <;> decide
  have hother : ∀ e ∈ Sample.twoPass.installed 0 ++ [transportEntry Sample.window],
      e.fn.fn.id ≠ 3 := by
    intro e he
    simp [Sample.twoPass, Heap.installed, Heap.readArray, Heap.field] at he
    rcases he with rfl | rfl | rfl <;> decide
  obtain ⟨self1, self2, h1, h2, h3, h4⟩ :=
    addTemp_then_removeTemp Sample.window Sample.twoPass 0 "third" (Sample.passOn 3) .undefined
      (.value (.bool true)) (by decide) (by decide) (fun h => AddTempOptions.noConfusion h) hyp
  exact ⟨by decide, by decide, fun h => AddTempOptions.noConfusion h, hyp, hother,
    self1, self2, h1, h2, h3,
    fun input fopts t => ⟨(h4 input fopts t).1, (h4 input fopts t).2.1,
      (h4 input fopts t).2.2 hother⟩⟩

/-- C19 as stated fails in its last clause.  The receiver holds the function `passOn 3` under
the name `a`; the middleware `third` has the same function.  No entry of the receiver is
named `third`, and after `addTemp(third)` and `removeTemp('third')` the object returned (at
address 2) has the list of the receiver, so its `fetch` calls `passOn 3`, the handler of the
middleware, as a `fetch` on the receiver does. -/
theorem round_trip_still_calls_handler :
    Sample.holdsThree.Valid 0 ∧ Sample.third.WellFormed ∧
    (∀ e ∈ Sample.holdsThree.installed 0, e.name ≠ "third") ∧
    (addTemp 0 Sample.third .undefined Sample.holdsThree).1 = .ok 1 ∧
    (removeTemp 1 (.data (.str "third"))
      (addTemp 0 Sample.third .undefined Sample.holdsThree).2).1 = .ok 2 ∧
    names ((removeTemp 1 (.data (.str "third"))
      (addTemp 0 Sample.third .undefined Sample.holdsThree).2).2.installed 2) = ["a"] ∧
    calledFns (fetch Sample.window 2 (.request Sample.request) .undefined
      ⟨(removeTemp 1 (.data (.str "third"))
        (addTemp 0 Sample.third .undefined Sample.holdsThree).2).2, []⟩).2.trace = [3, 0] ∧
    ¬ (∀ k ∈ (fetch Sample.window 2 (.request Sample.request) .undefined
      ⟨(removeTemp 1 (.data (.str "third"))
        (addTemp 0 Sample.third .undefined Sample.holdsThree).2).2, []⟩).2.trace,
      k.fn ≠ (Sample.passOn 3).id) := by
  refine ⟨by decide, ⟨rfl, rfl, rfl, rfl, rfl⟩, ?_, rfl, rfl, by decide, by decide, ?_⟩
  · intro e he
    simp [Sample.holdsThree, Heap.installed, Heap.readArray, Heap.field] at he
    subst he
    decide
  · intro hnever
    exact hnever ⟨3, .request Sample.request, some 0, .undefined⟩ (by decide) rfl

/-! ## `fetch` writes to its chain only -/

/-- A call of a wrapper leaves the objects and every array but the chain as they were. -/
theorem Wrapped.call_frame (c : Nat) :
    ∀ (n : Nat) (w : Wrapped) (x : Val) (s : Bounded c n),
      (Wrapped.call c n w x s).2.1.heap.objects = s.1.heap.objects ∧
      (Wrapped.call c n w x s).2.1.heap.arrays.length = s.1.heap.arrays.length ∧
      ∀ a, a ≠ c → (Wrapped.call c n w x s).2.1.heap.readArray a = s.1.heap.readArray a := by
  intro n
  induction n with
  | zero =>
    intro w x s
    rw [Wrapped.call_nil c 0 w x s (List.eq_nil_of_length_eq_zero (Nat.le_zero.mp s.2))]
    exact ⟨rfl, rfl, fun _ _ => rfl⟩
  | succ m ih =>
    intro w x s
    cases hc : s.1.heap.readArray c with
    | nil =>
      rw [Wrapped.call_nil c (m + 1) w x s hc]
      exact ⟨rfl, rfl, fun _ _ => rfl⟩
    | cons e rest =>
      obtain ⟨s1, hheap, -, -, hst⟩ := Wrapped.call_cons c m w x s e rest hc
      have hinv := runAct_invariant
        (fun (a : Bounded c m) => a.1.heap.objects = s.1.heap.objects ∧
          a.1.heap.arrays.length = s.1.heap.arrays.length ∧
          ∀ b, b ≠ c → a.1.heap.readArray b = s.1.heap.readArray b)
        (Wrapped.call c m e.fn)
        (fun y a ha => by
          obtain ⟨k1, k2, k3⟩ := ih e.fn y a
          exact ⟨k1.trans ha.1, k2.trans ha.2.1, fun b hb => (k3 b hb).trans (ha.2.2 b hb)⟩)
        (w.fn.body x true w.options) s1
        ⟨by rw [hheap]; rfl, by rw [hheap]; simp,
          fun b hb => by rw [hheap]; exact Heap.readArray_writeArray_other _ _ _ _ (Ne.symm hb)⟩
      rw [hst]
      exact hinv

/-- `fetch` leaves the objects and the arrays of the heap as they were: what it writes to is
the chain, an array it allocates. -/
theorem fetch_frame (window : Window) (this : Nat) (input options : Val) (s : St) :
    (fetch window this input options s).2.heap.objects = s.heap.objects ∧
    ∀ a, a < s.heap.arrays.length →
      (fetch window this input options s).2.heap.readArray a = s.heap.readArray a := by
  rcases fetch_accepted_or_unchanged window this input options s with ⟨r, hacc⟩ | hsame
  · obtain ⟨first, rest, hfr⟩ :
        ∃ first rest, s.heap.installed this ++ [transportEntry window] = first :: rest := by
      cases s.heap.installed this with
      | nil => exact ⟨_, _, rfl⟩
      | cons a l => exact ⟨a, l ++ [transportEntry window], rfl⟩
    obtain ⟨n, b, -, -, hobj, -, hold, hfetch⟩ :=
      fetch_accepted window this input options s r first rest hacc hfr
    obtain ⟨k1, -, k3⟩ := Wrapped.call_frame s.heap.arrays.length n first.fn (.request r) b
    rw [hfetch]
    refine ⟨k1.trans hobj, fun a ha => ?_⟩
    exact (k3 a (Nat.ne_of_lt ha)).trans (hold a ha)
  · rw [hsame]
    exact ⟨rfl, fun _ _ => rfl⟩

/-- Two calls of a wrapper on chains with the same entries record the same calls and complete
alike, whatever was recorded before. -/
theorem Wrapped.call_same_calls (c1 c2 : Nat) (t1 t2 : List Call) :
    ∀ (n1 n2 : Nat) (w : Wrapped) (x : Val) (s1 : Bounded c1 n1) (s2 : Bounded c2 n2),
      s1.1.heap.readArray c1 = s2.1.heap.readArray c2 →
      (∃ new, s1.1.trace = t1 ++ new ∧ s2.1.trace = t2 ++ new) →
      (Wrapped.call c1 n1 w x s1).1 = (Wrapped.call c2 n2 w x s2).1 ∧
      ((Wrapped.call c1 n1 w x s1).2.1.heap.readArray c1 =
          (Wrapped.call c2 n2 w x s2).2.1.heap.readArray c2 ∧
        ∃ new, (Wrapped.call c1 n1 w x s1).2.1.trace = t1 ++ new ∧
          (Wrapped.call c2 n2 w x s2).2.1.trace = t2 ++ new) := by
  have hnil : ∀ (n1 n2 : Nat) (w : Wrapped) (x : Val) (s1 : Bounded c1 n1)
      (s2 : Bounded c2 n2), s1.1.heap.readArray c1 = [] → s2.1.heap.readArray c2 = [] →
      (∃ new, s1.1.trace = t1 ++ new ∧ s2.1.trace = t2 ++ new) →
      (Wrapped.call c1 n1 w x s1).1 = (Wrapped.call c2 n2 w x s2).1 ∧
      ((Wrapped.call c1 n1 w x s1).2.1.heap.readArray c1 =
          (Wrapped.call c2 n2 w x s2).2.1.heap.readArray c2 ∧
        ∃ new, (Wrapped.call c1 n1 w x s1).2.1.trace = t1 ++ new ∧
          (Wrapped.call c2 n2 w x s2).2.1.trace = t2 ++ new) := by
    intro n1 n2 w x s1 s2 h1 h2 htrace
    obtain ⟨new, k1, k2⟩ := htrace
    rw [Wrapped.call_nil c1 n1 w x s1 h1, Wrapped.call_nil c2 n2 w x s2 h2]
    refine ⟨rfl, by simp only []; rw [h1, h2], new ++ [⟨w.fn.id, x, none, w.options⟩], ?_, ?_⟩
    · simp only []
      rw [k1, List.append_assoc]
    · simp only []
      rw [k2, List.append_assoc]
  intro n1
  induction n1 with
  | zero =>
    intro n2 w x s1 s2 hchain htrace
    have h1 : s1.1.heap.readArray c1 = [] := List.eq_nil_of_length_eq_zero (Nat.le_zero.mp s1.2)
    exact hnil 0 n2 w x s1 s2 h1 (by rw [← hchain]; exact h1) htrace
  | succ m ih =>
    intro n2 w x s1 s2 hchain htrace
    cases hc : s1.1.heap.readArray c1 with
    | nil => exact hnil (m + 1) n2 w x s1 s2 hc (by rw [← hchain]; exact hc) htrace
    | cons e rest =>
      have hc2 : s2.1.heap.readArray c2 = e :: rest := by rw [← hchain]; exact hc
      obtain ⟨m2, rfl⟩ := bound_pos_of_cons s2 hc2
      obtain ⟨a1, hheap1, htrace1, hout1, hst1⟩ := Wrapped.call_cons c1 m w x s1 e rest hc
      obtain ⟨a2, hheap2, htrace2, hout2, hst2⟩ := Wrapped.call_cons c2 m2 w x s2 e rest hc2
      have hlt1 : c1 < s1.1.heap.arrays.length :=
        Heap.lt_of_readArray_ne_nil (by rw [hc]; simp)
      have hlt2 : c2 < s2.1.heap.arrays.length :=
        Heap.lt_of_readArray_ne_nil (by rw [hc2]; simp)
      obtain ⟨new, k1, k2⟩ := htrace
      have hsim := runAct_simulation
        (fun (a : Bounded c1 m) (b : Bounded c2 m2) =>
          a.1.heap.readArray c1 = b.1.heap.readArray c2 ∧
          ∃ new, a.1.trace = t1 ++ new ∧ b.1.trace = t2 ++ new)
        (Wrapped.call c1 m e.fn) (Wrapped.call c2 m2 e.fn)
        (fun y a b hR => ih m2 e.fn y a b hR.1 hR.2)
        (w.fn.body x true w.options) a1 a2
        ⟨by rw [hheap1, hheap2, Heap.readArray_writeArray_same _ _ _ hlt1,
              Heap.readArray_writeArray_same _ _ _ hlt2],
          new ++ [⟨w.fn.id, x, some e.fn.fn.id, w.options⟩],
          by rw [htrace1, k1, List.append_assoc],
          by rw [htrace2, k2, List.append_assoc]⟩
      rw [hout1, hout2, hst1, hst2]
      exact hsim

/-- Two `fetch` calls over the same installed entries complete alike and make the same calls,
whatever was recorded before. -/
theorem fetch_same_calls (window : Window) (this1 this2 : Nat) (input options : Val)
    (h1 h2 : Heap) (t1 t2 : List Call) (hL : h1.installed this1 = h2.installed this2) :
    (fetch window this1 input options ⟨h1, t1⟩).1 =
      (fetch window this2 input options ⟨h2, t2⟩).1 ∧
    ∃ new, (fetch window this1 input options ⟨h1, t1⟩).2.trace = t1 ++ new ∧
      (fetch window this2 input options ⟨h2, t2⟩).2.trace = t2 ++ new := by
  have main : ∀ r, Accepted window input options r →
      (fetch window this1 input options ⟨h1, t1⟩).1 =
        (fetch window this2 input options ⟨h2, t2⟩).1 ∧
      ∃ new, (fetch window this1 input options ⟨h1, t1⟩).2.trace = t1 ++ new ∧
        (fetch window this2 input options ⟨h2, t2⟩).2.trace = t2 ++ new := by
    intro r hacc
    obtain ⟨first, rest, hfr⟩ :
        ∃ first rest, h1.installed this1 ++ [transportEntry window] = first :: rest := by
      cases h1.installed this1 with
      | nil => exact ⟨_, _, rfl⟩
      | cons a l => exact ⟨a, l ++ [transportEntry window], rfl⟩
    obtain ⟨n1, b1, htrace1, hchain1, -, -, -, hfetch1⟩ :=
      fetch_accepted window this1 input options ⟨h1, t1⟩ r first rest hacc hfr
    obtain ⟨n2, b2, htrace2, hchain2, -, -, -, hfetch2⟩ :=
      fetch_accepted window this2 input options ⟨h2, t2⟩ r first rest hacc
        (by rw [← hL]; exact hfr)
    rw [hfetch1, hfetch2]
    obtain ⟨k1, -, k3⟩ := Wrapped.call_same_calls _ _ t1 t2 n1 n2 first.fn (.request r) b1 b2
      (by rw [hchain1, hchain2]) ⟨[], by rw [htrace1]; simp, by rw [htrace2]; simp⟩
    exact ⟨k1, k3⟩
  cases input with
  | str url =>
    cases hreq : window.newRequest url options with
    | error e =>
      unfold fetch
      simp [hreq, Except.map]
    | ok r => exact main r (Or.inr ⟨url, rfl, hreq⟩)
  | request r => exact main r (Or.inl rfl)
  | _ => exact ⟨rfl, [], by simp [fetch], by simp [fetch]⟩

/-- C14: `fetch` works on a copy of the list.  After a `fetch` on any input the receiver holds
the same array with the same entries in the same order (every object and every array of the
heap is as before), and a second `fetch` on the same input completes as the first and makes
the same calls in the same order. -/
theorem fetch_keeps_installed (window : Window) (this : Nat) (input options : Val) (s : St)
    (hv : s.heap.Valid this) :
    (fetch window this input options s).2.heap.field this = s.heap.field this ∧
    (fetch window this input options s).2.heap.installed this = s.heap.installed this ∧
    (fetch window this input options s).2.heap.objects = s.heap.objects ∧
    (∀ a, a < s.heap.arrays.length →
      (fetch window this input options s).2.heap.readArray a = s.heap.readArray a) ∧
    (fetch window this input options (fetch window this input options s).2).1 =
      (fetch window this input options s).1 ∧
    ∃ new, (fetch window this input options s).2.trace = s.trace ++ new ∧
      (fetch window this input options (fetch window this input options s).2).2.trace =
        (fetch window this input options s).2.trace ++ new := by
  obtain ⟨hobj, harr⟩ := fetch_frame window this input options s
  have hfield : (fetch window this input options s).2.heap.field this = s.heap.field this := by
    unfold Heap.field
    rw [hobj]
  have hinst : (fetch window this input options s).2.heap.installed this =
      s.heap.installed this := by
    unfold Heap.installed
    rw [hfield]
    exact harr _ hv.2
  refine ⟨hfield, hinst, hobj, harr, ?_⟩
  obtain ⟨k1, new, k2, k3⟩ := fetch_same_calls window this this input options
    (fetch window this input options s).2.heap s.heap (fetch window this input options s).2.trace
    s.trace hinst
  exact ⟨k1, new, k3, k2⟩

/-- Two `fetch` calls in a row on the receiver with `passOn 1` and `passOn 2` installed. -/
theorem fetch_keeps_installed_witness :
    Sample.twoPass.Valid 0 ∧
    (fetch Sample.window 0 (.request Sample.request) .undefined
      ⟨Sample.twoPass, []⟩).2.heap.field 0 = Sample.twoPass.field 0 ∧
    (fetch Sample.window 0 (.request Sample.request) .undefined
      ⟨Sample.twoPass, []⟩).2.heap.installed 0 = Sample.twoPass.installed 0 ∧
    (fetch Sample.window 0 (.request Sample.request) .undefined
      ⟨Sample.twoPass, []⟩).2.heap.objects = Sample.twoPass.objects ∧
    (∀ a, a < Sample.twoPass.arrays.length →
      (fetch Sample.window 0 (.request Sample.request) .undefined
        ⟨Sample.twoPass, []⟩).2.heap.readArray a = Sample.twoPass.readArray a) ∧
    (fetch Sample.window 0 (.request Sample.request) .undefined
      (fetch Sample.window 0 (.request Sample.request) .undefined ⟨Sample.twoPass, []⟩).2).1 =
      (fetch Sample.window 0 (.request Sample.request) .undefined ⟨Sample.twoPass, []⟩).1 ∧
    ∃ new, (fetch Sample.window 0 (.request Sample.request) .undefined
        ⟨Sample.twoPass, []⟩).2.trace = [] ++ new ∧
      (fetch Sample.window 0 (.request Sample.request) .undefined
        (fetch Sample.window 0 (.request Sample.request) .undefined
          ⟨Sample.twoPass, []⟩).2).2.trace =
        (fetch Sample.window 0 (.request Sample.request) .undefined
          ⟨Sample.twoPass, []⟩).2.trace ++ new :=
  ⟨by decide,
    fetch_keeps_installed Sample.window 0 (.request Sample.request) .undefined
      ⟨Sample.twoPass, []⟩ (by decide)⟩

/-! ## The first argument of a call -/

theorem runAct_invariant_args {σ : Type} (P : Val → Prop) (I : σ → Prop)
    (f : Val → σ → Outcome × σ) (hf : ∀ x s, P x → I s → I (f x s).2) (a : Act) (s : σ)
    (ha : a.NextArgs P) (hs : I s) : I (runAct (some f) a s).2 := by
  induction a generalizing s with
  | ret v => exact hs
  | throw e => exact hs
  | callNext x k ih =>
    simp only [runAct]
    exact ih _ _ (ha.2 _) (hf x s ha.1 hs)

/-- The first call a wrapper records is the call of its function on the request it was
given. -/
theorem Wrapped.call_first (c n : Nat) (w : Wrapped) (x : Val) (s : Bounded c n) :
    ∃ nxt more, (Wrapped.call c n w x s).2.1.trace =
      s.1.trace ++ ⟨w.fn.id, x, nxt, w.options⟩ :: more := by
  cases hc : s.1.heap.readArray c with
  | nil =>
    rw [Wrapped.call_nil c n w x s hc]
    exact ⟨none, [], rfl⟩
  | cons e rest =>
    obtain ⟨m, rfl⟩ := bound_pos_of_cons s hc
    obtain ⟨s1, -, htrace, -, hst⟩ := Wrapped.call_cons c m w x s e rest hc
    have hinv := runAct_invariant
      (fun (a : Bounded c m) => ∃ more, a.1.trace = s1.1.trace ++ more)
      (Wrapped.call c m e.fn)
      (fun y a ha => by
        obtain ⟨more, hmore⟩ := ha
        obtain ⟨-, new, hnew, -⟩ := Wrapped.call_calls c (fun _ => True) (fun _ => True)
          (fun _ _ _ _ => trivial) m e.fn y a trivial (fun _ _ => trivial)
        exact ⟨more ++ new, by rw [hnew, hmore, List.append_assoc]⟩)
      (w.fn.body x true w.options) s1 ⟨[], by simp⟩
    obtain ⟨more, hmore⟩ := hinv
    refine ⟨some e.fn.fn.id, more, ?_⟩
    rw [hst, hmore, htrace]
    simp

/-- When the wrapper is given a request and every function with a link after it (the wrapped
one, those of the chain but the last) passes requests to `next`, every call recorded has a
request as first argument; the chain afterwards is an end of the chain before. -/
theorem Wrapped.call_requests (c : Nat) :
    ∀ (n : Nat) (w : Wrapped) (x : Val) (s : Bounded c n), x.IsRequest →
      (∀ v ∈ (w :: (s.1.heap.readArray c).map Entry.fn).dropLast, v.fn.PassesRequests) →
      (∃ p, s.1.heap.readArray c = p ++ (Wrapped.call c n w x s).2.1.heap.readArray c) ∧
      ∃ new, (Wrapped.call c n w x s).2.1.trace = s.1.trace ++ new ∧
        ∀ k ∈ new, k.request.IsRequest := by
  have hnil : ∀ (n : Nat) (w : Wrapped) (x : Val) (s : Bounded c n), x.IsRequest →
      s.1.heap.readArray c = [] →
      (∃ p, s.1.heap.readArray c = p ++ (Wrapped.call c n w x s).2.1.heap.readArray c) ∧
      ∃ new, (Wrapped.call c n w x s).2.1.trace = s.1.trace ++ new ∧
        ∀ k ∈ new, k.request.IsRequest := by
    intro n w x s hx hc
    rw [Wrapped.call_nil c n w x s hc]
    refine ⟨⟨[], by simp⟩, [⟨w.fn.id, x, none, w.options⟩], rfl, ?_⟩
    intro k hk
    rw [List.mem_singleton] at hk
    rw [hk]
    exact hx
  intro n
  induction n with
  | zero =>
    intro w x s hx _
    exact hnil 0 w x s hx (List.eq_nil_of_length_eq_zero (Nat.le_zero.mp s.2))
  | succ m ih =>
    intro w x s hx hgood
    cases hc : s.1.heap.readArray c with
    | nil =>
      have hres := hnil (m + 1) w x s hx hc
      rw [hc] at hres
      exact hres
    | cons e rest =>
      obtain ⟨s1, hheap, htrace, -, hst⟩ := Wrapped.call_cons c m w x s e rest hc
      have hlt : c < s.1.heap.arrays.length :=
        Heap.lt_of_readArray_ne_nil (by rw [hc]; simp)
      rw [hc] at hgood
      simp only [List.map_cons, List.dropLast_cons₂] at hgood
      have hw : w.fn.PassesRequests := hgood w (List.mem_cons_self _ _)
      have hinv := runAct_invariant_args Val.IsRequest
        (fun (a : Bounded c m) => (∃ p, rest = p ++ a.1.heap.readArray c) ∧
          ∃ new, a.1.trace = s.1.trace ++ new ∧ ∀ k ∈ new, k.request.IsRequest)
        (Wrapped.call c m e.fn)
        (fun y a hy ha => by
          obtain ⟨⟨p, hp⟩, new1, h2, h3⟩ := ha
          have hgood2 : ∀ v ∈ (e.fn :: (a.1.heap.readArray c).map Entry.fn).dropLast,
              v.fn.PassesRequests := by
            intro v hv
            cases hca : a.1.heap.readArray c with
            | nil =>
              rw [hca] at hv
              simp at hv
            | cons e2 l2 =>
              rw [hca] at hv hp
              apply hgood v
              apply List.mem_cons_of_mem
              rw [hp, List.map_append, ← List.cons_append,
                List.dropLast_append_of_ne_nil _ (by simp)]
              rw [List.dropLast_cons_of_ne_nil (by simp)] at hv
              rcases List.mem_cons.mp hv with hv | hv
              · rw [hv]
                exact List.mem_append_left _ (List.mem_cons_self _ _)
              · exact List.mem_append_right _ hv
          obtain ⟨⟨p2, hp2⟩, new2, k2, k3⟩ := ih e.fn y a hy hgood2
          refine ⟨⟨p ++ p2, by rw [List.append_assoc, ← hp2, ← hp]⟩, new1 ++ new2, ?_, ?_⟩
          · rw [k2, h2, List.append_assoc]
          · intro k hk
            rcases List.mem_append.mp hk with hk | hk
            · exact h3 k hk
            · exact k3 k hk)
        (w.fn.body x true w.options) s1 (hw x true w.options hx)
        ⟨⟨[], by rw [hheap, Heap.readArray_writeArray_same _ _ _ hlt]; rfl⟩,
         [⟨w.fn.id, x, some e.fn.fn.id, w.options⟩], htrace, by
          intro k hk
          rw [List.mem_singleton] at hk
          rw [hk]
          exact hx⟩
      rw [hst]
      obtain ⟨⟨p, hp⟩, hrest⟩ := hinv
      exact ⟨⟨e :: p, by rw [hp]; rfl⟩, hrest⟩

theorem Sample.passOn_passesRequests (id : Nat) : (Sample.passOn id).PassesRequests := by
  intro x b o hx
  refine ⟨hx, ?_⟩
  intro out
  cases out <;> trivial

/-- C18, as the code has it: in a `fetch` on an accepted input the first function called
receives the request object the input was normalized to; a later function receives what the
function before it passed to `next`, which the wrapper hands on as it is.  So when every
installed function, given a request object, calls `next` with request objects only, every
function called receives a request object as its first argument. -/
theorem first_call_gets_request (window : Window) (this : Nat) (input options : Val)
    (s : St) (r : Request) (hacc : Accepted window input options r) :
    ∃ k rest, (fetch window this input options s).2.trace = s.trace ++ k :: rest ∧
      k.request = .request r ∧
      ((∀ e ∈ s.heap.installed this, e.fn.fn.PassesRequests) →
        ∀ k2 ∈ rest, k2.request.IsRequest) := by
  obtain ⟨first, l, hfr⟩ :
      ∃ first l, s.heap.installed this ++ [transportEntry window] = first :: l := by
    cases s.heap.installed this with
    | nil => exact ⟨_, _, rfl⟩
    | cons a l => exact ⟨a, l ++ [transportEntry window], rfl⟩
  obtain ⟨n, b, htrace, hchain, -, -, -, hfetch⟩ :=
    fetch_accepted window this input options s r first l hacc hfr
  obtain ⟨nxt, more, hfirst⟩ := Wrapped.call_first s.heap.arrays.length n first.fn (.request r) b
  refine ⟨⟨first.fn.fn.id, .request r, nxt, first.fn.options⟩, more, ?_, rfl, ?_⟩
  · rw [hfetch]
    simp only []
    rw [hfirst, htrace]
  · intro hall
    have hgood : ∀ v ∈ (first.fn :: (b.1.heap.readArray s.heap.arrays.length).map
        Entry.fn).dropLast, v.fn.PassesRequests := by
      intro v hv
      rw [hchain, ← List.map_cons, ← hfr, List.map_append, List.map_singleton,
        List.dropLast_concat] at hv
      obtain ⟨e, he, rfl⟩ := List.mem_map.mp hv
      exact hall e he
    obtain ⟨-, new, hnew, hreq⟩ := Wrapped.call_requests s.heap.arrays.length n first.fn
      (.request r) b ⟨r, rfl⟩ hgood
    rw [hfirst] at hnew
    have heq := List.append_cancel_left hnew
    intro k2 hk2
    apply hreq
    rw [← heq]
    exact List.mem_cons_of_mem _ hk2

/-- With `passOn 1` and `passOn 2` installed, which pass on the request they are given, every
call has the request as first argument. -/
theorem first_call_gets_request_witness :
    Accepted Sample.window (.request Sample.request) .undefined Sample.request ∧
    (∀ e ∈ Sample.twoPass.installed 0, e.fn.fn.PassesRequests) ∧
    ∃ k rest, (fetch Sample.window 0 (.request Sample.request) .undefined
        ⟨Sample.twoPass, []⟩).2.trace = [] ++ k :: rest ∧
      k.request = .request Sample.request ∧
      ∀ k2 ∈ rest, k2.request.IsRequest := by
  have hyp : ∀ e ∈ Sample.twoPass.installed 0, e.fn.fn.PassesRequests := by
    intro e he
    simp [Sample.twoPass, Heap.installed, Heap.readArray, Heap.field] at he
    rcases he with rfl | rfl <;> exact Sample.passOn_passesRequests _
  obtain ⟨k, rest, h1, h2, h3⟩ := first_call_gets_request Sample.window 0
    (.request Sample.request) .undefined ⟨Sample.twoPass, []⟩ Sample.request (Or.inl rfl)
  exact ⟨Or.inl rfl, hyp, k, rest, h1, h2, h3 hyp⟩

/-- C18 as stated fails.  With `(request, next) => next(42)` installed before `passOn 2`, the
function `passOn 2` is called with the number 42 as first argument, and so is
`window.fetch`. -/
theorem later_call_gets_what_was_passed :
    Accepted Sample.window (.request Sample.request) .undefined Sample.request ∧
    ¬ CallsGetRequests Sample.window 0 (.request Sample.request) .undefined
      ⟨Sample.numberPass, []⟩ ∧
    (fetch Sample.window 0 (.request Sample.request) .undefined
      ⟨Sample.numberPass, []⟩).2.trace.map (fun k => (k.fn, k.request)) =
        [(1, .request Sample.request), (2, .num 42), (0, .num 42)] := by
  refine ⟨Or.inl rfl, ?_, by decide⟩
  intro hclaim
  have hk := hclaim (fetch Sample.window 0 (.request Sample.request) .undefined
    ⟨Sample.numberPass, []⟩).2.trace rfl ⟨2, .num 42, some 0, .undefined⟩ (by decide)
  obtain ⟨r, hr⟩ := hk
  cases hr

/-! ## Names -/

/-- Allocating arrays with distinct names and an object that holds one of the arrays of the
heap keeps the fields within the heap and the names of every array distinct. -/
theorem inv_alloc (h : Heap) (as : List (List Entry)) (a : Nat)
    (hfield : ∀ d, d < h.objects.length → h.field d < h.arrays.length)
    (harr : ∀ l ∈ h.arrays, (names l).Nodup)
    (ha : a < (h.arrays ++ as).length) (has : ∀ l ∈ as, (names l).Nodup) :
    (∀ d, d < (⟨h.arrays ++ as, h.objects ++ [⟨a⟩]⟩ : Heap).objects.length →
      (⟨h.arrays ++ as, h.objects ++ [⟨a⟩]⟩ : Heap).field d <
        (⟨h.arrays ++ as, h.objects ++ [⟨a⟩]⟩ : Heap).arrays.length) ∧
    ∀ l ∈ (⟨h.arrays ++ as, h.objects ++ [⟨a⟩]⟩ : Heap).arrays, (names l).Nodup := by
  constructor
  · intro d hd
    simp only [List.length_append, List.length_singleton] at hd
    by_cases hlt : d < h.objects.length
    · have h1 : (⟨h.arrays ++ as, h.objects ++ [⟨a⟩]⟩ : Heap).field d = h.field d := by
        simp [Heap.field, List.getD_eq_getElem?_getD, List.getElem?_append_left hlt]
      rw [h1]
      have h2 := hfield d hlt
      simp only [List.length_append]
      omega
    · have hd2 : d = h.objects.length := by omega
      subst hd2
      have h1 : (⟨h.arrays ++ as, h.objects ++ [⟨a⟩]⟩ : Heap).field h.objects.length = a := by
        simp [Heap.field, List.getD_eq_getElem?_getD]
      rw [h1]
      exact ha
  · intro l hl
    rcases List.mem_append.mp hl with hl | hl
    · exact harr l hl
    · exact has l hl

/-- The array an object of the heap holds is one of the arrays of the heap. -/
theorem Heap.installed_mem (h : Heap) (d : Nat) (hlt : h.field d < h.arrays.length) :
    h.installed d ∈ h.arrays := by
  unfold Heap.installed Heap.readArray
  rw [List.getD_eq_getElem?_getD, List.getElem?_eq_getElem hlt]
  exact List.getElem_mem _

theorem names_filter_nodup (l : List Entry) (p : Entry → Bool) (hl : (names l).Nodup) :
    (names (l.filter p)).Nodup := by
  unfold names at hl ⊢
  exact List.Nodup.sublist (List.Sublist.map _ (List.filter_sublist l)) hl

/-- In a heap reached with middleware of fresh names only, every field holds an array of the
heap and the names in every array are pairwise distinct. -/
theorem reachable_fresh_inv (h : Heap) (hr : Reachable FreshName h) :
    (∀ d, d < h.objects.length → h.field d < h.arrays.length) ∧
    ∀ l ∈ h.arrays, (names l).Nodup := by
  induction hr with
  | empty =>
    exact ⟨fun d hd => absurd hd (Nat.not_lt_zero d), fun l hl => absurd hl (List.not_mem_nil l)⟩
  | construct h _ ih =>
    exact inv_alloc h [[]] h.arrays.length ih.1 ih.2 (by simp)
      (fun l hl => by
        rw [List.mem_singleton] at hl
        rw [hl]
        exact List.nodup_nil)
  | use h this a _ hthis hadm ih =>
    cases hv : _verifyMiddleware a with
    | error e =>
      have hsame : (use this a h).2 = h := by
        unfold use
        rw [hv]
      rw [hsame]
      exact ih
    | ok m =>
      obtain ⟨ha, -⟩ := verify_ok_record a m hv
      have hheap : (use this a h).2 =
          h.writeArray (h.field this) (h.installed this ++ [⟨m.name, ⟨m.fn, m.options⟩⟩]) := by
        unfold use
        rw [hv]
        rfl
      rw [hheap]
      refine ⟨fun d hd => ?_, fun l hl => ?_⟩
      · rw [Heap.field_writeArray, Heap.arrays_length_writeArray]
        exact ih.1 d hd
      · rcases List.mem_or_eq_of_mem_set hl with hl | hl
        · exact ih.2 l hl
        · rw [hl]
          have hnod := ih.2 _ (Heap.installed_mem h this (ih.1 this hthis))
          have hfresh : m.name ∉ names (h.installed this) := hadm m.name (by rw [ha]; rfl)
          unfold names at hnod hfresh ⊢
          rw [List.map_append, List.map_singleton]
          exact List.Nodup.append hnod (List.nodup_singleton _)
            (List.disjoint_singleton.mpr hfresh)
  | addTemp h this a options _ hthis hadm ih =>
    cases hp : options.prepend with
    | error e =>
      have hsame : (addTemp this a options h).2 = h := by
        unfold addTemp
        rw [hp]
      rw [hsame]
      exact ih
    | ok p =>
      cases hv : _verifyMiddleware a with
      | error e =>
        have hsame : (addTemp this a options h).2 = h := by
          unfold addTemp
          rw [hp]
          dsimp only
          rw [hv]
        rw [hsame]
        exact ih
      | ok m =>
        obtain ⟨ha, hname⟩ := verify_ok_record a m hv
        have hnod := ih.2 _ (Heap.installed_mem h this (ih.1 this hthis))
        have hfresh : m.name ∉ names (h.installed this) := hadm m.name (by rw [ha]; rfl)
        rw [ha, addTemp_record this m.name m.fn m.options options p h ⟨hthis, ih.1 this hthis⟩
          hname hp]
        apply inv_alloc h _ _ ih.1 ih.2 (by simp)
        intro l hl
        simp only [List.mem_cons, List.mem_singleton, List.not_mem_nil, or_false] at hl
        rcases hl with hl | hl
        · rw [hl]
          exact List.nodup_nil
        · rw [hl]
          unfold names at hnod hfresh ⊢
          by_cases htr : p.truthy = true
          · rw [if_pos htr, List.map_cons]
            exact List.nodup_cons.mpr ⟨hfresh, hnod⟩
          · rw [if_neg htr, List.map_append, List.map_singleton]
            exact List.Nodup.append hnod (List.nodup_singleton _)
              (List.disjoint_singleton.mpr hfresh)
  | removeTemp h this name _ hthis ih =>
    by_cases hn : name.NonEmptyString
    · obtain ⟨s, rfl, hs⟩ := hn
      rw [removeTemp_string this s h ⟨hthis, ih.1 this hthis⟩ hs]
      apply inv_alloc h _ _ ih.1 ih.2 (by simp)
      intro l hl
      simp only [List.mem_cons, List.mem_singleton, List.not_mem_nil, or_false] at hl
      rcases hl with hl | hl
      · rw [hl]
        exact List.nodup_nil
      · rw [hl]
        exact names_filter_nodup _ _ (ih.2 _ (Heap.installed_mem h this (ih.1 this hthis)))
    · have hsame : (removeTemp this name h).2 = h := by
        have herr : ∃ e, (removeTemp this name h).1 = .error e := by
          cases name with
          | data v =>
            cases v with
            | str s =>
              have hs : s = "" := by
                by_contra hs
                exact hn ⟨s, rfl, hs⟩
              exact ⟨badName, by
                simp [removeTemp, Field.truthy, Field.typeof, Val.truthy, Val.typeof, hs]⟩
            | _ =>
              exact ⟨badName, by
                simp [removeTemp, Field.truthy, Field.typeof, Val.truthy, Val.typeof]⟩
          | func f => exact ⟨badName, by simp [removeTemp, Field.truthy, Field.typeof]⟩
        obtain ⟨e, he⟩ := herr
        unfold removeTemp at he ⊢
        split
        · rfl
        · rename_i hc
          rw [if_neg hc] at he
          cases he
      rw [hsame]
      exact ih

/-- C15, as the code has it: nothing keeps a name from being registered twice.  In every
object of a heap reached from the empty heap by `new D2LFetch()`, `use`, `addTemp` and
`removeTemp`, the names of the entries are pairwise distinct provided every `use` and every
`addTemp` is given a middleware whose name is not yet the name of an entry of its
receiver. -/
theorem names_distinct_when_fresh (h : Heap) (hr : Reachable FreshName h) :
    NamesDistinct h := by
  obtain ⟨hfield, harr⟩ := reachable_fresh_inv h hr
  intro d hd
  exact harr _ (Heap.installed_mem h d (hfield d hd))

theorem Sample.usedThenAdded_reachable : Reachable FreshName Sample.usedThenAdded := by
  apply Reachable.addTemp
  · apply Reachable.use
    · exact Reachable.construct _ Reachable.empty
    · decide
    · intro s _
      exact List.not_mem_nil s
  · decide
  · intro s hs
    have hs2 : s = "fourth" := by
      simp [Sample.fourth, Arg.name] at hs
      exact hs.symm
    subst hs2
    decide

/-- After `d.use(third)` and `d.addTemp(fourth)` on a new object, the names are distinct in
the object and in the object returned. -/
theorem names_distinct_when_fresh_witness :
    Reachable FreshName Sample.usedThenAdded ∧ NamesDistinct Sample.usedThenAdded ∧
    names (Sample.usedThenAdded.installed 1) = ["third", "fourth"] :=
  ⟨Sample.usedThenAdded_reachable,
    names_distinct_when_fresh Sample.usedThenAdded Sample.usedThenAdded_reachable, by decide⟩

/-- C15 as stated fails: after `d.use(third)` twice on a new object, the list of `d` has two
entries named `third`. -/
theorem names_repeat_after_use_twice :
    Reachable AnyArg Sample.usedTwice ∧ ¬ NamesDistinct Sample.usedTwice ∧
    names (Sample.usedTwice.installed 0) = ["third", "third"] := by
  refine ⟨?_, ?_, by decide⟩
  · apply Reachable.use
    · apply Reachable.use
      · exact Reachable.construct _ Reachable.empty
      · decide
      · trivial
    · decide
    · trivial
  · intro hd
    exact absurd (hd 0 (by decide)) (by decide)

end D2L
